import Mathlib

/-!
Verification development for the rag-search-engine keyword search core.

The Python sources are embedded shallowly over `List Char` (a Python `str`
is its character sequence):

* `src/cli/tokenizer.py` — `Tokenizer` with `_normalize`, `_split_into_words`,
  `remove_stopwords`, `_stem`, and `tokenize`;
* the Porter stemmer of `nltk.stem.PorterStemmer` (default `NLTK_EXTENSIONS`
  mode), the external algorithm those sources call for stemming;
* `src/cli/text_processing.py` — the duplicated free-function pipeline used by
  the older `src/cli/search_engine.py` engine;
* `src/cli/search_engines/inverted_index.py` — `InvertedIndex` with
  `__add_document`, `get_documents`, `build`, `save`, `load`, `search`;
* `src/cli/search_engine.py` and `src/cli/search_engines/linear_search.py` —
  the query/title processing paths of the two linear engines.

Modelling conventions: Python `dict`s become association lists keyed in
insertion order; Python `set`s of ints become strictly ascending `List Nat`
(the canonical representative — only membership is observable in the source);
exceptions (`KeyError`, storage errors) become `Except`/`Option` results, with
`Except` errors carrying the in-memory state at the moment the exception
escapes, since the Python methods mutate `self` in place; `pickle` round-trips
are modelled as a lossless encoding, so a persisted artifact is either absent,
undecodable, or the stored value itself; `str.lower` is embedded by its ASCII
action (all inputs in the development are ASCII) and `str.split` splits on
runs of whitespace.
-/

namespace RagSearch

/-- ASCII punctuation characters: the Python `string.punctuation` constant
used by `Tokenizer._normalize` and `text_processing.normalize_text`. -/
def pyPunct : List Char :=
  "!\"#$%&\x27()*+,-./:;<=>?@[\\]^_\x60\x7b|\x7d~".toList

/-- Membership in `string.punctuation`. -/
def isPyPunct (c : Char) : Bool := pyPunct.contains c

/-- Embedding of Python `str.lower` on one character, by its ASCII action:
an uppercase ASCII letter (code 65–90) maps to its lowercase form 32 codes
higher and every other character is unchanged. -/
def lowerChar (c : Char) : Char :=
  if 65 ≤ c.toNat ∧ c.toNat ≤ 90 then Char.ofNat (c.toNat + 32) else c

/-- Shorthand turning a string literal into its character list. -/
def lstr (s : String) : List Char := s.toList

/-! ## The Porter stemmer (`nltk.stem.PorterStemmer`, default mode)

`Tokenizer._stem` and `text_processing.stem_tokens` both call
`PorterStemmer().stem`, whose default mode is `NLTK_EXTENSIONS`.  The
definitions below embed that implementation: the consonant/vowel
classification, the measure, the rule-list interpreter with its `*d`
special form, steps 1a–5b including the NLTK extension clauses, and the
pool of irregular forms consulted first. -/

/-- The five vowel letters of `PorterStemmer.vowels`. -/
def porterVowel (c : Char) : Bool :=
  c = 'a' || c = 'e' || c = 'i' || c = 'o' || c = 'u'

/-- Left-to-right consonant classification of `PorterStemmer._is_consonant`
computed in one pass: the argument carries whether the previous character was
a consonant ('y' counts as a consonant at position 0 and after a vowel). -/
def consListAux : Option Bool → List Char → List Bool
  | _, [] => []
  | p, c :: cs =>
    let cur :=
      if porterVowel c then false
      else if c = 'y' then
        match p with
        | none => true
        | some b => !b
      else true
    cur :: consListAux (some cur) cs

/-- Consonant classification of every position of a word, `true` meaning
consonant. -/
def consList (w : List Char) : List Bool := consListAux none w

/-- Count of vowel-to-consonant transitions, the `cv_sequence.count("vc")` of
`PorterStemmer._measure`. -/
def countVC : List Bool → Nat
  | [] => 0
  | [_] => 0
  | a :: b :: r => (if !a && b then 1 else 0) + countVC (b :: r)

/-- `PorterStemmer._measure`. -/
def pMeasure (w : List Char) : Nat := countVC (consList w)

/-- `PorterStemmer._contains_vowel`. -/
def containsVowel (w : List Char) : Bool := (consList w).any (fun b => !b)

/-- Whether the final character is classified as a consonant. -/
def lastCons (w : List Char) : Bool := (consList w).getLastD false

/-- `PorterStemmer._ends_double_consonant`. -/
def endsDoubleCons (w : List Char) : Bool :=
  match w.reverse with
  | a :: b :: _ => a == b && lastCons w
  | _ => false

/-- `PorterStemmer._ends_cvc`, including the NLTK-extension clause for
two-letter vowel-consonant words. -/
def endsCVC (w : List Char) : Bool :=
  (match (consList w).reverse, w.reverse with
   | c1 :: c2 :: c3 :: _, d1 :: _ =>
     c3 && !c2 && c1 && !(d1 == 'w' || d1 == 'x' || d1 == 'y')
   | _, _ => false)
  ||
  (match consList w with
   | [c0, c1] => !c0 && c1
   | _ => false)

/-- Python `word.endswith(suf)` on character lists. -/
def endsWithL (w suf : List Char) : Bool :=
  decide (suf.length ≤ w.length) && w.drop (w.length - suf.length) == suf

/-- Python `word[:-len(suf)]`, the stem left after removing a suffix. -/
def chopSuffix (w suf : List Char) : List Char :=
  w.take (w.length - suf.length)

/-- One rule of `PorterStemmer._apply_rule_list`: either an ordinary
suffix/replacement/condition triple, or the `*d` form matching a double
consonant ending. -/
inductive PRule where
  | suf (pat repl : List Char) (cond : Option (List Char → Bool))
  | dbl (repl : List Char) (cond : List Char → Bool)

/-- `PorterStemmer._apply_rule_list`: the first rule whose suffix matches
fires; a fired rule whose condition fails returns the word unchanged and
stops. -/
def applyRuleList (w : List Char) : List PRule → List Char
  | [] => w
  | PRule.dbl repl cond :: rest =>
    if endsDoubleCons w then
      let stem := w.take (w.length - 2)
      if cond stem then stem ++ repl else w
    else applyRuleList w rest
  | PRule.suf pat repl cond :: rest =>
    if endsWithL w pat then
      let stem := chopSuffix w pat
      if (match cond with | none => true | some f => f stem) then stem ++ repl
      else w
    else applyRuleList w rest

/-- `PorterStemmer._step1a`, with the NLTK extension for four-letter words in
"ies". -/
def step1a (w : List Char) : List Char :=
  if endsWithL w (lstr "ies") && w.length == 4 then
    chopSuffix w (lstr "ies") ++ lstr "ie"
  else
    applyRuleList w
      [ .suf (lstr "sses") (lstr "ss") none,
        .suf (lstr "ies") (lstr "i") none,
        .suf (lstr "ss") (lstr "ss") none,
        .suf (lstr "s") [] none ]

/-- The terminal rule list of `PorterStemmer._step1b`, parameterized by the
intermediate stem obtained after removing "ed" or "ing". -/
def step1bRules (ist : List Char) : List PRule :=
  [ .suf (lstr "at") (lstr "ate") none,
    .suf (lstr "bl") (lstr "ble") none,
    .suf (lstr "iz") (lstr "ize") none,
    .dbl [ist.getLastD ' ']
      (fun _ => !(ist.getLastD ' ' == 'l' || ist.getLastD ' ' == 's'
                   || ist.getLastD ' ' == 'z')),
    .suf [] (lstr "e")
      (some (fun stem => pMeasure stem == 1 && endsCVC stem)) ]

/-- `PorterStemmer._step1b`, with the NLTK extension for "ied" endings. -/
def step1b (w : List Char) : List Char :=
  if endsWithL w (lstr "ied") then
    if w.length == 4 then chopSuffix w (lstr "ied") ++ lstr "ie"
    else chopSuffix w (lstr "ied") ++ lstr "i"
  else if endsWithL w (lstr "eed") then
    (let stem := chopSuffix w (lstr "eed")
     if 0 < pMeasure stem then stem ++ lstr "ee" else w)
  else if endsWithL w (lstr "ed") && containsVowel (chopSuffix w (lstr "ed"))
  then
    applyRuleList (chopSuffix w (lstr "ed")) (step1bRules (chopSuffix w (lstr "ed")))
  else if endsWithL w (lstr "ing") && containsVowel (chopSuffix w (lstr "ing"))
  then
    applyRuleList (chopSuffix w (lstr "ing")) (step1bRules (chopSuffix w (lstr "ing")))
  else w

/-- `PorterStemmer._step1c` with the NLTK condition: "y" becomes "i" only
when the remaining stem is longer than one character and ends in a
consonant. -/
def step1c (w : List Char) : List Char :=
  applyRuleList w
    [ .suf (lstr "y") (lstr "i")
        (some (fun stem => decide (1 < stem.length) && lastCons stem)) ]

/-- `PorterStemmer._has_positive_measure`. -/
def hasPosM (stem : List Char) : Bool := decide (0 < pMeasure stem)

/-- The rule list of `PorterStemmer._step2` (NLTK mode: the "bli" variant and
the extra "fulli" and "logi" rules; the "logi" condition keeps the letter 'l'
with the stem, measuring `word[:-3]`). -/
def step2Rules (w : List Char) : List PRule :=
  [ .suf (lstr "ational") (lstr "ate") (some hasPosM),
    .suf (lstr "tional") (lstr "tion") (some hasPosM),
    .suf (lstr "enci") (lstr "ence") (some hasPosM),
    .suf (lstr "anci") (lstr "ance") (some hasPosM),
    .suf (lstr "izer") (lstr "ize") (some hasPosM),
    .suf (lstr "bli") (lstr "ble") (some hasPosM),
    .suf (lstr "alli") (lstr "al") (some hasPosM),
    .suf (lstr "entli") (lstr "ent") (some hasPosM),
    .suf (lstr "eli") (lstr "e") (some hasPosM),
    .suf (lstr "ousli") (lstr "ous") (some hasPosM),
    .suf (lstr "ization") (lstr "ize") (some hasPosM),
    .suf (lstr "ation") (lstr "ate") (some hasPosM),
    .suf (lstr "ator") (lstr "ate") (some hasPosM),
    .suf (lstr "alism") (lstr "al") (some hasPosM),
    .suf (lstr "iveness") (lstr "ive") (some hasPosM),
    .suf (lstr "fulness") (lstr "ful") (some hasPosM),
    .suf (lstr "ousness") (lstr "ous") (some hasPosM),
    .suf (lstr "aliti") (lstr "al") (some hasPosM),
    .suf (lstr "iviti") (lstr "ive") (some hasPosM),
    .suf (lstr "biliti") (lstr "ble") (some hasPosM),
    .suf (lstr "fulli") (lstr "ful") (some hasPosM),
    .suf (lstr "logi") (lstr "log")
      (some (fun _ => hasPosM (w.take (w.length - 3)))) ]

/-- `PorterStemmer._step2` with explicit recursion fuel.  The NLTK mode
first tries the "alli" rule and, when it fires, runs the result through
step 2 again; each such rewrite shortens the word by two characters, so the
initial fuel `w.length` of `step2` is never exhausted (the zero-fuel
fallback applies the rule list exactly as the non-"alli" case does). -/
def step2Go : Nat → List Char → List Char
  | 0, w => applyRuleList w (step2Rules w)
  | fuel + 1, w =>
    if endsWithL w (lstr "alli") && hasPosM (chopSuffix w (lstr "alli")) then
      step2Go fuel (chopSuffix w (lstr "alli") ++ lstr "al")
    else applyRuleList w (step2Rules w)

/-- `PorterStemmer._step2`. -/
def step2 (w : List Char) : List Char := step2Go w.length w

/-- `PorterStemmer._step3`. -/
def step3 (w : List Char) : List Char :=
  applyRuleList w
    [ .suf (lstr "icate") (lstr "ic") (some hasPosM),
      .suf (lstr "ative") [] (some hasPosM),
      .suf (lstr "alize") (lstr "al") (some hasPosM),
      .suf (lstr "iciti") (lstr "ic") (some hasPosM),
      .suf (lstr "ical") (lstr "ic") (some hasPosM),
      .suf (lstr "ful") [] (some hasPosM),
      .suf (lstr "ness") [] (some hasPosM) ]

/-- Measure strictly above one, the gate of steps 4, 5a and 5b. -/
def mGT1 (stem : List Char) : Bool := decide (1 < pMeasure stem)

/-- `PorterStemmer._step4`; the "ion" rule additionally requires the stem to
end in 's' or 't'. -/
def step4 (w : List Char) : List Char :=
  applyRuleList w
    [ .suf (lstr "al") [] (some mGT1),
      .suf (lstr "ance") [] (some mGT1),
      .suf (lstr "ence") [] (some mGT1),
      .suf (lstr "er") [] (some mGT1),
      .suf (lstr "ic") [] (some mGT1),
      .suf (lstr "able") [] (some mGT1),
      .suf (lstr "ible") [] (some mGT1),
      .suf (lstr "ant") [] (some mGT1),
      .suf (lstr "ement") [] (some mGT1),
      .suf (lstr "ment") [] (some mGT1),
      .suf (lstr "ent") [] (some mGT1),
      .suf (lstr "ion") []
        (some (fun stem => mGT1 stem
          && (stem.getLastD ' ' == 's' || stem.getLastD ' ' == 't'))),
      .suf (lstr "ou") [] (some mGT1),
      .suf (lstr "ism") [] (some mGT1),
      .suf (lstr "ate") [] (some mGT1),
      .suf (lstr "iti") [] (some mGT1),
      .suf (lstr "ous") [] (some mGT1),
      .suf (lstr "ive") [] (some mGT1),
      .suf (lstr "ize") [] (some mGT1) ]

/-- `PorterStemmer._step5a`. -/
def step5a (w : List Char) : List Char :=
  if endsWithL w (lstr "e") then
    (let stem := chopSuffix w (lstr "e")
     if 1 < pMeasure stem then stem
     else if pMeasure stem == 1 && !endsCVC stem then stem
     else w)
  else w

/-- `PorterStemmer._step5b`. -/
def step5b (w : List Char) : List Char :=
  if mGT1 w && endsDoubleCons w && endsWithL w (lstr "l") then
    w.take (w.length - 1)
  else w

/-- The irregular-form pool built in the `NLTK_EXTENSIONS` constructor,
flattened to (inflected form, stem) pairs. -/
def porterPool : List (List Char × List Char) :=
  [ (lstr "sky", lstr "sky"), (lstr "skies", lstr "sky"),
    (lstr "dying", lstr "die"), (lstr "lying", lstr "lie"),
    (lstr "tying", lstr "tie"), (lstr "news", lstr "news"),
    (lstr "innings", lstr "inning"), (lstr "inning", lstr "inning"),
    (lstr "outings", lstr "outing"), (lstr "outing", lstr "outing"),
    (lstr "cannings", lstr "canning"), (lstr "canning", lstr "canning"),
    (lstr "howe", lstr "howe"), (lstr "proceed", lstr "proceed"),
    (lstr "exceed", lstr "exceed"), (lstr "succeed", lstr "succeed") ]

/-- `PorterStemmer.stem` in the default mode: lowercase, consult the pool,
return words of length at most two unchanged, otherwise run steps 1a–5b. -/
def porterStem (word : List Char) : List Char :=
  let stem := word.map lowerChar
  match porterPool.lookup word with
  | some _ => (porterPool.lookup stem).getD stem
  | none =>
    if word.length ≤ 2 then stem
    else step5b (step5a (step4 (step3 (step2 (step1c (step1b (step1a stem)))))))

/-! ## The tokenizer (`src/cli/tokenizer.py`) -/

/-- `Tokenizer._normalize`: lowercase the text, then delete every character
of `string.punctuation`. -/
def normalizeL (t : List Char) : List Char :=
  (t.map lowerChar).filter (fun c => !isPyPunct c)

/-- One step of the split on a leading non-whitespace character `c`: if the
next character is missing or whitespace, `c` is a complete piece on its own;
otherwise `c` extends the piece that begins at the next character (already
the head of the split `r` of the tail). -/
def splitWsCons (c : Char) (cs : List Char) (r : List (List Char)) :
    List (List Char) :=
  match cs with
  | [] => [[c]]
  | d :: _ =>
    if d.isWhitespace then [c] :: r
    else
      match r with
      | [] => [[c]]
      | w :: rs => (c :: w) :: rs

/-- Python `str.split()` with no argument, used by
`Tokenizer._split_into_words` and `text_processing.tokenize`: break on runs
of whitespace, discarding empty pieces. -/
def splitWsL : List Char → List (List Char)
  | [] => []
  | c :: cs =>
    if c.isWhitespace then splitWsL cs
    else splitWsCons c cs (splitWsL cs)

/-- The tokenizer of `src/cli/tokenizer.py`: its only state is the stopword
set fixed at construction. -/
structure Tokenizer where
  stopwords : List (List Char)
deriving DecidableEq

/-- The module-level `remove_stopwords` of `src/cli/tokenizer.py`. -/
def removeStopwordsL (toks : List (List Char)) (stop : List (List Char)) :
    List (List Char) :=
  toks.filter (fun t => !stop.contains t)

/-- `Tokenizer.tokenize`: normalize, split, remove stopwords, stem. -/
def Tokenizer.tokenize (tk : Tokenizer) (text : List Char) :
    List (List Char) :=
  (removeStopwordsL (splitWsL (normalizeL text)) tk.stopwords).map porterStem

/-! ## `src/cli/text_processing.py` and `src/cli/search_engine.py`

`text_processing.py` is a duplicated free-function copy of the same pipeline;
its `tokenize` is Python `str.split` (the shared builtin, `splitWsL` here) and
its `stem_tokens` constructs the same nltk stemmer. -/

/-- `text_processing.normalize_text`. -/
def normalize_text (t : List Char) : List Char :=
  (t.map lowerChar).filter (fun c => !isPyPunct c)

/-- `text_processing.remove_stopwords`. -/
def remove_stopwords (toks : List (List Char)) (stop : List (List Char)) :
    List (List Char) :=
  toks.filter (fun t => !stop.contains t)

/-- `text_processing.stem_tokens`. -/
def stem_tokens (toks : List (List Char)) : List (List Char) :=
  toks.map porterStem

/-- `MovieSearchEngine._process_query` of `src/cli/search_engine.py`:
normalize, split, remove stopwords, stem. -/
def seProcessQuery (stop : List (List Char)) (q : List Char) :
    List (List Char) :=
  stem_tokens (remove_stopwords (splitWsL (normalize_text q)) stop)

/-- `MovieSearchEngine._process_title` of `src/cli/search_engine.py`:
normalize and split only — no stopword removal, no stemming. -/
def seProcessTitle (t : List Char) : List (List Char) :=
  splitWsL (normalize_text t)

/-- The query path of `src/cli/search_engines/linear_search.py`
(`search` and `deprecated_linear_search` both run
`self.tokenizer.tokenize(query)`). -/
def linearProcessQuery (tk : Tokenizer) (q : List Char) : List (List Char) :=
  tk.tokenize q

/-- The title path of `src/cli/search_engines/linear_search.py`
(`_find_matches` runs `self.tokenizer.tokenize(movie["title"])`). -/
def linearProcessTitle (tk : Tokenizer) (t : List Char) : List (List Char) :=
  tk.tokenize t

/-! ## The inverted index (`src/cli/search_engines/inverted_index.py`) -/

/-- A corpus record as consumed by `build`: a Python dict whose required
keys `id`, `title`, `description` may each be absent.  Additional metadata
fields are never read by the core and are omitted from the embedding. -/
structure Doc where
  id? : Option Nat
  title? : Option (List Char)
  descr? : Option (List Char)
deriving DecidableEq

/-- A term key of the index: a stemmed token. -/
abbrev Term := List Char

/-- `self.index`: dict from token to set of document ids.  The set is kept as
its canonical strictly ascending list. -/
abbrev Index := List (Term × List Nat)

/-- `self.docmap`: dict from document id to the stored record. -/
abbrev DocMap := List (Nat × Doc)

/-- The in-memory state of an `InvertedIndex` instance. -/
structure IIState where
  index : Index
  docmap : DocMap
deriving DecidableEq

/-- Python `set.add` on the canonical ascending representation. -/
def insertSet (i : Nat) : List Nat → List Nat
  | [] => [i]
  | j :: r =>
    if i < j then i :: j :: r
    else if i = j then j :: r
    else j :: insertSet i r

/-- The body of `__add_document` for one token:
`if token not in self.index: self.index[token] = set()` followed by
`self.index[token].add(doc_id)`.  A fresh key is appended at the end, in
dict insertion order. -/
def indexInsert (t : Term) (i : Nat) : Index → Index
  | [] => [(t, [i])]
  | (t0, ps) :: rest =>
    if t0 = t then (t0, insertSet i ps) :: rest
    else (t0, ps) :: indexInsert t i rest

/-- `self.docmap[doc_id] = m`: replace the entry if the key exists, else
append it. -/
def docmapInsert (i : Nat) (d : Doc) : DocMap → DocMap
  | [] => [(i, d)]
  | (j, e) :: rest =>
    if j = i then (j, d) :: rest else (j, e) :: docmapInsert i d rest

/-- `InvertedIndex.__add_document`: tokenize the text and add the id under
every resulting token. -/
def addDocument (tk : Tokenizer) (idx : Index) (docId : Nat)
    (text : List Char) : Index :=
  (tk.tokenize text).foldl (fun acc t => indexInsert t docId acc) idx

/-- One iteration of the `build` loop.  `m["id"]` is read first (a missing
key raises before any mutation), then `self.docmap[doc_id] = m`, then the
f-string `f"{m['title']} {m['description']}"` (raising after the docmap
write when either field is missing), then `__add_document`.  An error
carries the state at the moment the exception escapes. -/
def buildStep (tk : Tokenizer) (st : IIState) (m : Doc) :
    Except IIState IIState :=
  match m.id? with
  | none => .error st
  | some i =>
    let st1 : IIState := { st with docmap := docmapInsert i m st.docmap }
    match m.title?, m.descr? with
    | some ti, some de =>
      .ok { st1 with index := addDocument tk st1.index i (ti ++ ' ' :: de) }
    | _, _ => .error st1

/-- `InvertedIndex.build`: the loop over the corpus, stopping at the first
record that raises. -/
def build (tk : Tokenizer) (st : IIState) : List Doc → Except IIState IIState
  | [] => .ok st
  | m :: ms =>
    match buildStep tk st m with
    | .ok st1 => build tk st1 ms
    | .error st1 => .error st1

/-- Ordered insertion realizing Python `sorted` on ints. -/
def insertNat (i : Nat) : List Nat → List Nat
  | [] => [i]
  | j :: r => if i ≤ j then i :: j :: r else j :: insertNat i r

/-- Python `sorted` on a list of ints. -/
def sortNat (l : List Nat) : List Nat := l.foldr insertNat []

/-- `InvertedIndex.get_documents`: tokenize the term through the full
pipeline, return `[]` if no token results, else the sorted posting set of
the first token (`self.index.get(stemmed_term, set())`). -/
def get_documents (tk : Tokenizer) (idx : Index) (term : List Char) :
    List Nat :=
  match tk.tokenize term with
  | [] => []
  | t :: _ => sortNat ((List.lookup t idx).getD [])

/-- The union accumulation of `search`:
`matching_doc_ids.update(self.index.get(token, set()))` over every query
token, starting from the empty set. -/
def unionPostings (idx : Index) (toks : List Term) : List Nat :=
  toks.foldl
    (fun acc t => ((List.lookup t idx).getD []).foldl
      (fun a i => insertSet i a) acc) []

/-- Stable ordered insertion by the first component, realizing Python
`sorted(..., key=lambda m: m["id"])`. -/
def insertPair (p : Nat × Doc) : List (Nat × Doc) → List (Nat × Doc)
  | [] => [p]
  | q :: r => if p.1 ≤ q.1 then p :: q :: r else q :: insertPair p r

/-- Stable sort of (key, record) pairs by key. -/
def sortPairs (l : List (Nat × Doc)) : List (Nat × Doc) :=
  l.foldr insertPair []

/-- `InvertedIndex.search`: tokenize the query; `[]` on an empty token list;
otherwise union the posting sets, resolve every id through `self.docmap`
(a missing id or a stored record without an `id` field raises — `none`
here), sort the records by their `id` field and return the first 5. -/
def search (tk : Tokenizer) (st : IIState) (q : List Char) :
    Option (List Doc) :=
  match tk.tokenize q with
  | [] => some []
  | t :: ts =>
    let ids := unionPostings st.index (t :: ts)
    match ids.mapM (fun i =>
        match List.lookup i st.docmap with
        | none => none
        | some d =>
          match d.id? with
          | none => none
          | some k => some (k, d)) with
    | none => none
    | some pairs => some (((sortPairs pairs).map Prod.snd).take 5)

/-! ## Persistence (`save`/`load`) and operation traces

`save` pickles `self.index` and `self.docmap` to two artifacts under
`cache/`; `load` unpickles them, assigning `self.index` first and
`self.docmap` second, so a failure on the second artifact leaves the first
assignment in place.  Pickle round-trips are modelled as lossless, so an
artifact is absent, undecodable, or the stored value. -/

/-- A persisted artifact: the file may be absent, undecodable, or hold the
serialized value. -/
inductive Artifact (α : Type) where
  | absent
  | corrupt
  | good (v : α)
deriving DecidableEq

/-- Whether an artifact deserializes successfully. -/
def Artifact.isGood {α : Type} : Artifact α → Bool
  | .good _ => true
  | _ => false

/-- The two files written under `cache/`. -/
structure Storage where
  indexArt : Artifact Index
  docmapArt : Artifact DocMap
deriving DecidableEq

/-- `InvertedIndex.save`: write both artifacts. -/
def save (st : IIState) (_s : Storage) : Storage :=
  { indexArt := .good st.index, docmapArt := .good st.docmap }

/-- `InvertedIndex.load`: read and assign `self.index`, then read and assign
`self.docmap`; a failure raises at that point, leaving the assignments made
so far. -/
def load (st : IIState) (s : Storage) : Except IIState IIState :=
  match s.indexArt with
  | .good ix =>
    let st1 : IIState := { st with index := ix }
    match s.docmapArt with
    | .good dm => .ok { st1 with docmap := dm }
    | _ => .error st1
  | _ => .error st

/-- One operation on a live instance and its cache directory. -/
inductive Op where
  | build (corpus : List Doc)
  | save
  | load

/-- The empty instance next to an empty cache directory. -/
def emptyWorld : IIState × Storage :=
  (⟨[], []⟩, ⟨.absent, .absent⟩)

/-- Run one operation; a raised exception leaves the mutated state behind,
as in the source. -/
def runOp (tk : Tokenizer) (w : IIState × Storage) : Op → IIState × Storage
  | .build c =>
    match build tk w.1 c with
    | .ok st => (st, w.2)
    | .error st => (st, w.2)
  | .save => (w.1, save w.1 w.2)
  | .load =>
    match load w.1 w.2 with
    | .ok st => (st, w.2)
    | .error st => (st, w.2)

/-- Run a sequence of operations from a starting world. -/
def runOps (tk : Tokenizer) (w : IIState × Storage) (ops : List Op) :
    IIState × Storage :=
  ops.foldl (runOp tk) w

/-! ## Invariants and concrete instances used by the theorems below -/

/-- Whether a corpus record carries all three required fields. -/
def hasRequired (d : Doc) : Bool :=
  d.id?.isSome && d.title?.isSome && d.descr?.isSome

/-- The consistency invariant of the claims: every id in any stored posting
set resolves in the document store to a record carrying that id. -/
def consistentP (st : IIState) : Prop :=
  ∀ p ∈ st.index, ∀ i ∈ p.2,
    ∃ d, List.lookup i st.docmap = some d ∧ d.id? = some i

/-- Decidable form of the consistency invariant. -/
def consistentB (st : IIState) : Bool :=
  st.index.all (fun p => p.2.all (fun i =>
    match List.lookup i st.docmap with
    | some d => d.id? == some i
    | none => false))

/-- Strictly ascending check, the canonical form of stored posting sets. -/
def strictSortedB : List Nat → Bool
  | [] => true
  | [_] => true
  | a :: b :: r => decide (a < b) && strictSortedB (b :: r)

/-- Well-formedness of an index value: every posting list is in canonical
strictly ascending form. -/
def wfIndexB (idx : Index) : Bool := idx.all (fun p => strictSortedB p.2)

/-- No stored key maps to an empty posting set. -/
def keysNonemptyB (idx : Index) : Bool := idx.all (fun p => !p.2.isEmpty)

/-- Invariant carried through operation traces: the live index and any
persisted index artifact have no empty posting sets. -/
def worldInv (w : IIState × Storage) : Prop :=
  keysNonemptyB w.1.index = true ∧
  ∀ ix, w.2.indexArt = Artifact.good ix → keysNonemptyB ix = true

/-- A tokenizer with an empty stopword set, for concrete instances. -/
def tkA : Tokenizer := ⟨[]⟩

/-- A record with the given id and empty title and description. -/
def dA (i : Nat) : Doc := ⟨some i, some [], some []⟩

/-- A state whose term "z" matches seven documents. -/
def stA : IIState :=
  ⟨[(lstr "z", [1, 2, 3, 4, 5, 6, 7])],
   [(1, dA 1), (2, dA 2), (3, dA 3), (4, dA 4), (5, dA 5), (6, dA 6),
    (7, dA 7)]⟩

/-- An index value with one term and two postings. -/
def idxW2 : Index := [(lstr "cat", [2, 5])]

/-- A corpus with a duplicated identifier. -/
def corpusB : List Doc :=
  [⟨some 1, some (lstr "cat"), some (lstr "dog")⟩,
   ⟨some 1, some (lstr "cow"), some (lstr "owl")⟩]

/-- The state built from `corpusB`. -/
def stB : IIState :=
  match build tkA ⟨[], []⟩ corpusB with
  | .ok s => s
  | .error s => s

/-- A tokenizer whose stopword set is the lowercase word "the". -/
def tkC3 : Tokenizer := ⟨[lstr "the"]⟩

/-- A document whose title is the single capitalized word "The". -/
def docC3 : Doc := ⟨some 1, some (lstr "The"), some []⟩

/-- The state built from the one-document corpus `[docC3]`. -/
def stC3 : IIState :=
  match build tkC3 ⟨[], []⟩ [docC3] with
  | .ok s => s
  | .error s => s

/-- A state indexing the term "lion" for document 1. -/
def stC5 : IIState :=
  ⟨[(lstr "lion", [1])],
   [(1, ⟨some 1, some (lstr "The Lion King"), some []⟩)]⟩

/-- A nonempty pre-load state. -/
def stC6 : IIState := ⟨[(lstr "a", [1])], [(1, dA 1)]⟩

/-- The state left behind by a load that fails on the docmap artifact. -/
def stErrC6 : IIState := ⟨[], stC6.docmap⟩

/-- A record with every required field. -/
def goodDoc : Doc := ⟨some 1, some (lstr "cat"), some (lstr "dog")⟩

/-- A record missing its `title` field. -/
def badDoc : Doc := ⟨some 2, none, some (lstr "owl")⟩

/-- The state left behind when `build` hits `badDoc`. -/
def stC7 : IIState :=
  match build tkA ⟨[], []⟩ [goodDoc, badDoc] with
  | .ok s => s
  | .error s => s

/-- The state built from the one-document corpus `[goodDoc]`. -/
def stW3 : IIState :=
  ⟨[(lstr "cat", [1]), (lstr "dog", [1])], [(1, goodDoc)]⟩

/-! ## Character-level facts about normalization -/

/-- Lowercasing never changes whether a character is whitespace. -/
theorem lowerChar_isWhitespace (c : Char) :
    (lowerChar c).isWhitespace = c.isWhitespace := by
  unfold lowerChar
  split_ifs with h
  · have key : ∀ n : Nat, 65 ≤ n → n ≤ 90 → c.toNat = n →
        (Char.ofNat (n + 32)).isWhitespace = c.isWhitespace := by
      intro n hn1 hn2 hcn
      have hc : c = Char.ofNat n := by rw [← hcn, Char.ofNat_toNat]
      subst hc
      interval_cases n <;> decide
    exact key c.toNat h.1 h.2 rfl
  · rfl

/-- Lowercasing fixes whitespace characters. -/
theorem lowerChar_ws_self {c : Char} (h : c.isWhitespace = true) :
    lowerChar c = c := by
  simp only [Char.isWhitespace, Bool.or_eq_true, decide_eq_true_eq] at h
  rcases h with ((h | h) | h) | h <;> subst h <;> decide

/-- Whitespace characters are not punctuation. -/
theorem isPyPunct_ws {c : Char} (h : c.isWhitespace = true) :
    isPyPunct c = false := by
  simp only [Char.isWhitespace, Bool.or_eq_true, decide_eq_true_eq] at h
  rcases h with ((h | h) | h) | h <;> subst h <;> decide

/-- Normalization distributes over a whitespace character in the middle. -/
theorem normalizeL_ws_cons (a : List Char) {c : Char}
    (hc : c.isWhitespace = true) (b : List Char) :
    normalizeL (a ++ c :: b) = normalizeL a ++ c :: normalizeL b := by
  simp [normalizeL, List.filter_append, lowerChar_ws_self hc,
    isPyPunct_ws hc]

/-- Every character of a normalized text keeps its whitespace status from
the source text; in particular normalizing an all-non-whitespace word keeps
it all non-whitespace. -/
theorem normalizeL_not_ws {w : List Char}
    (hw : ∀ c ∈ w, c.isWhitespace = false) :
    ∀ c ∈ normalizeL w, c.isWhitespace = false := by
  intro c hc
  simp only [normalizeL, List.mem_filter, List.mem_map] at hc
  obtain ⟨⟨d, hd, rfl⟩, _⟩ := hc
  rw [lowerChar_isWhitespace]
  exact hw d hd

/-! ## Facts about Python `str.split` -/

/-- `takeWhile` across an append whose joint element fails the predicate. -/
theorem takeWhile_append_neg {α : Type} (p : α → Bool) (xs : List α)
    (y : α) (ys : List α) (hy : p y = false) :
    (xs ++ y :: ys).takeWhile p = xs.takeWhile p := by
  induction xs with
  | nil => simp [List.takeWhile_cons, hy]
  | cons a r ih =>
    simp only [List.cons_append, List.takeWhile_cons]
    cases p a <;> simp [ih]

/-- `dropWhile` across an append whose joint element fails the predicate. -/
theorem dropWhile_append_neg {α : Type} (p : α → Bool) (xs : List α)
    (y : α) (ys : List α) (hy : p y = false) :
    (xs ++ y :: ys).dropWhile p = xs.dropWhile p ++ y :: ys := by
  induction xs with
  | nil => simp [List.dropWhile_cons, hy]
  | cons a r ih =>
    simp only [List.cons_append, List.dropWhile_cons]
    cases h : p a <;> simp [ih, h]

/-- `takeWhile` across an append whose left part satisfies the predicate. -/
theorem takeWhile_append_pos {α : Type} (p : α → Bool) (xs : List α)
    (ys : List α) (hxs : ∀ a ∈ xs, p a = true) :
    (xs ++ ys).takeWhile p = xs ++ ys.takeWhile p := by
  induction xs with
  | nil => simp
  | cons a r ih =>
    have ha := hxs a (by simp)
    simp only [List.cons_append, List.takeWhile_cons, ha, if_true]
    rw [ih (fun a ha => hxs a (by simp [ha]))]

/-- `dropWhile` across an append whose left part satisfies the predicate. -/
theorem dropWhile_append_pos {α : Type} (p : α → Bool) (xs : List α)
    (ys : List α) (hxs : ∀ a ∈ xs, p a = true) :
    (xs ++ ys).dropWhile p = ys.dropWhile p := by
  induction xs with
  | nil => simp
  | cons a r ih =>
    have ha := hxs a (by simp)
    simp only [List.cons_append, List.dropWhile_cons, ha, if_true]
    exact ih (fun a ha => hxs a (by simp [ha]))

/-- The remainder after `dropWhile` is empty or headed by a failing
element. -/
theorem dropWhile_head_cases {α : Type} (p : α → Bool) (l : List α) :
    l.dropWhile p = [] ∨
      ∃ d rs, l.dropWhile p = d :: rs ∧ p d = false := by
  induction l with
  | nil => left; rfl
  | cons a r ih =>
    cases h : p a
    · right; exact ⟨a, r, by simp [List.dropWhile_cons, h], h⟩
    · simpa [List.dropWhile_cons, h] using ih

/-- Splitting the empty text. -/
theorem splitWsL_nil : splitWsL [] = [] := rfl

/-- The split of a cons cell, characterized through `takeWhile` and
`dropWhile`: a leading whitespace character is skipped, and a leading
non-whitespace character begins a piece consisting of the maximal
non-whitespace run. -/
theorem splitWsL_cons_eq (c : Char) (cs : List Char) :
    splitWsL (c :: cs) =
      if c.isWhitespace then splitWsL cs
      else (c :: cs.takeWhile (fun d => !d.isWhitespace))
           :: splitWsL (cs.dropWhile (fun d => !d.isWhitespace)) := by
  induction cs generalizing c with
  | nil =>
    by_cases hws : c.isWhitespace
    · simp [splitWsL, hws]
    · simp [splitWsL, splitWsCons, hws]
  | cons d cs' ih =>
    by_cases hws : c.isWhitespace
    · simp [splitWsL, hws]
    · rw [if_neg hws]
      have hL : splitWsL (c :: d :: cs')
          = splitWsCons c (d :: cs') (splitWsL (d :: cs')) := by
        rw [splitWsL, if_neg hws]
      rw [hL]
      by_cases hd : d.isWhitespace
      · have hpd : ¬ ((!d.isWhitespace) = true) := by simp [hd]
        rw [List.takeWhile_cons, List.dropWhile_cons, if_neg hpd, if_neg hpd]
        simp [splitWsCons, hd]
      · have hpd : (!d.isWhitespace) = true := by simp [hd]
        have hI := ih d
        rw [if_neg hd] at hI
        rw [List.takeWhile_cons, List.dropWhile_cons, if_pos hpd, if_pos hpd]
        rw [hI]
        simp [splitWsCons, hd]

/-- Dropping a prefix can only shorten a list. -/
theorem dropWhile_length_le {α : Type} (p : α → Bool) :
    ∀ l : List α, (List.dropWhile p l).length ≤ l.length := by
  intro l
  induction l with
  | nil => simp [List.dropWhile]
  | cons a r ih =>
    rw [List.dropWhile_cons]
    split_ifs with ha
    · simp only [List.length_cons]
      omega
    · simp

/-- Induction along the recursion structure of the split: the empty text, a
skipped whitespace head, and a piece-starting head whose tail continues at
the dropped run. -/
theorem splitWs_induction (motive : List Char → Prop)
    (h1 : motive [])
    (h2 : ∀ (c : Char) (cs : List Char), c.isWhitespace = true →
      motive cs → motive (c :: cs))
    (h3 : ∀ (c : Char) (cs : List Char), ¬ c.isWhitespace = true →
      motive (cs.dropWhile (fun d => !d.isWhitespace)) →
      motive (c :: cs)) :
    ∀ l, motive l := by
  have key : ∀ (n : Nat) (l : List Char), l.length ≤ n → motive l := by
    intro n
    induction n with
    | zero =>
      intro l hl
      cases l with
      | nil => exact h1
      | cons c cs => simp at hl
    | succ n ih =>
      intro l hl
      cases l with
      | nil => exact h1
      | cons c cs =>
        simp only [List.length_cons] at hl
        by_cases hws : c.isWhitespace = true
        · exact h2 c cs hws (ih cs (by omega))
        · refine h3 c cs hws (ih _ ?_)
          have := dropWhile_length_le (fun d => !d.isWhitespace) cs
          omega
  exact fun l => key l.length l le_rfl

/-- Every piece of a Python split is a nonempty run of non-whitespace
characters. -/
theorem splitWsL_mem {l w : List Char} (h : w ∈ splitWsL l) :
    w ≠ [] ∧ ∀ c ∈ w, c.isWhitespace = false := by
  induction l using splitWs_induction with
  | h1 => simp [splitWsL] at h
  | h2 c cs hws ih =>
    rw [splitWsL_cons_eq, if_pos hws] at h
    exact ih h
  | h3 c cs hws ih =>
    rw [splitWsL_cons_eq, if_neg hws] at h
    rcases List.mem_cons.mp h with rfl | h
    · refine ⟨by simp, ?_⟩
      intro d hd
      rcases List.mem_cons.mp hd with rfl | hd
      · simpa using hws
      · have := List.mem_takeWhile_imp hd
        simpa using this
    · exact ih h

/-- Splitting a single non-whitespace word followed by a remainder that is
empty or whitespace-headed. -/
theorem splitWsL_word_append (w rest : List Char)
    (hw : ∀ c ∈ w, c.isWhitespace = false)
    (hrest : rest = [] ∨ ∃ d rs, rest = d :: rs ∧ d.isWhitespace = true) :
    splitWsL (w ++ rest) = (if w = [] then [] else [w]) ++ splitWsL rest := by
  cases w with
  | nil => simp
  | cons c w' =>
    have hc := hw c (by simp)
    have hw' : ∀ a ∈ w', (fun d => !d.isWhitespace) a = true := by
      intro a ha
      simp [hw a (by simp [ha])]
    have ht : w'.takeWhile (fun d => !d.isWhitespace) = w' := by
      have h0 := takeWhile_append_pos (fun d => !d.isWhitespace) w' [] hw'
      simpa using h0
    have hd2 : w'.dropWhile (fun d => !d.isWhitespace) = [] := by
      have h0 := dropWhile_append_pos (fun d => !d.isWhitespace) w' [] hw'
      simpa using h0
    rw [List.cons_append, splitWsL_cons_eq, if_neg (by simp [hc])]
    rcases hrest with rfl | ⟨d, rs, rfl, hd⟩
    · rw [List.append_nil, ht, hd2]
      simp [splitWsL]
    · have hdp : (fun d => !d.isWhitespace) d = false := by simp [hd]
      rw [takeWhile_append_neg (fun d => !d.isWhitespace) w' d rs hdp,
        dropWhile_append_neg (fun d => !d.isWhitespace) w' d rs hdp,
        ht, hd2]
      simp

/-- Python split distributes over concatenation through a space. -/
theorem splitWsL_append_ws (a b : List Char) :
    splitWsL (a ++ ' ' :: b) = splitWsL a ++ splitWsL b := by
  induction a using splitWs_induction with
  | h1 =>
    rw [List.nil_append, splitWsL_cons_eq, if_pos (by decide), splitWsL_nil,
      List.nil_append]
  | h2 c cs hws ih =>
    rw [List.cons_append, splitWsL_cons_eq, if_pos hws, ih, splitWsL_cons_eq,
      if_pos hws]
  | h3 c cs hws ih =>
    have hsp : (fun d => !d.isWhitespace) ' ' = false := by decide
    rw [List.cons_append, splitWsL_cons_eq, if_neg hws,
      takeWhile_append_neg (fun d => !d.isWhitespace) cs ' ' b hsp,
      dropWhile_append_neg (fun d => !d.isWhitespace) cs ' ' b hsp,
      ih, splitWsL_cons_eq, if_neg hws, List.cons_append]

/-- Python split commutes with normalization: normalizing first and then
splitting gives the normalizations of the raw words, minus those that
normalize away completely. -/
theorem splitWsL_normalizeL (l : List Char) :
    splitWsL (normalizeL l) =
      ((splitWsL l).map normalizeL).filter (fun x => !x.isEmpty) := by
  induction l using splitWs_induction with
  | h1 => simp [splitWsL, normalizeL]
  | h2 c cs hws ih =>
    have h1 : normalizeL (c :: cs) = c :: normalizeL cs :=
      normalizeL_ws_cons [] hws cs
    rw [h1, splitWsL_cons_eq, if_pos hws, ih, splitWsL_cons_eq, if_pos hws]
  | h3 c cs hws ih =>
    have hcs : cs = cs.takeWhile (fun d => !d.isWhitespace)
        ++ cs.dropWhile (fun d => !d.isWhitespace) :=
      (List.takeWhile_append_dropWhile _ _).symm
    have hcw : c.isWhitespace = false := by
      cases h : c.isWhitespace
      · rfl
      · exact absurd h hws
    have hword : ∀ a ∈ c :: cs.takeWhile (fun d => !d.isWhitespace),
        a.isWhitespace = false := by
      intro a ha
      rcases List.mem_cons.mp ha with rfl | ha
      · exact hcw
      · have := List.mem_takeWhile_imp ha
        simpa using this
    have hnorm : normalizeL (c :: cs) =
        normalizeL (c :: cs.takeWhile (fun d => !d.isWhitespace))
          ++ normalizeL (cs.dropWhile (fun d => !d.isWhitespace)) := by
      conv_lhs => rw [hcs]
      simp only [normalizeL, List.map_cons, List.map_append,
        ← List.cons_append, List.filter_append]
    have hrest : normalizeL (cs.dropWhile (fun d => !d.isWhitespace)) = [] ∨
        ∃ d rs, normalizeL (cs.dropWhile (fun d => !d.isWhitespace))
            = d :: rs ∧ d.isWhitespace = true := by
      rcases dropWhile_head_cases (fun d => !d.isWhitespace) cs with h | h
      · left; simp [h, normalizeL]
      · obtain ⟨d, rs, hdr, hd⟩ := h
        right
        have hdws : d.isWhitespace = true := by simpa using hd
        have hcons : normalizeL (d :: rs) = d :: normalizeL rs := by
          have h0 := normalizeL_ws_cons [] hdws rs
          simpa using h0
        exact ⟨d, normalizeL rs, by rw [hdr, hcons], hdws⟩
    rw [hnorm, splitWsL_word_append _ _
      (normalizeL_not_ws hword) hrest, ih]
    rw [splitWsL_cons_eq, if_neg hws]
    simp only [List.map_cons, List.filter_cons]
    by_cases hz : normalizeL (c :: cs.takeWhile (fun d => !d.isWhitespace)) = []
    · simp [hz]
    · rw [if_neg hz, if_pos (by simp [List.isEmpty_iff, hz])]
      rfl

/-- A raw word of the text whose normalization is nonempty appears, in
normalized form, among the split of the normalized text. -/
theorem normalizeL_mem_splitWsL {l w : List Char} (hw : w ∈ splitWsL l)
    (hne : normalizeL w ≠ []) : normalizeL w ∈ splitWsL (normalizeL l) := by
  rw [splitWsL_normalizeL]
  refine List.mem_filter.mpr ⟨List.mem_map.mpr ⟨w, hw, rfl⟩, ?_⟩
  simp [List.isEmpty_iff, hne]

/-! ## Tokenizer-level lemmas -/

/-- Splitting the indexed text `f"{title} {description}"` splits title and
description independently. -/
theorem word_mem_split_text {title descr w : List Char}
    (hw : w ∈ splitWsL title ∨ w ∈ splitWsL descr) :
    w ∈ splitWsL (title ++ ' ' :: descr) := by
  rw [splitWsL_append_ws]
  rcases hw with hw | hw
  · exact List.mem_append_left _ hw
  · exact List.mem_append_right _ hw

/-- Tokenizing a single whitespace-free word whose normalization is nonempty
and not a stopword yields exactly the stem of its normalization. -/
theorem tokenize_single_word (tk : Tokenizer) {w : List Char}
    (hws : ∀ c ∈ w, c.isWhitespace = false)
    (hne : normalizeL w ≠ [])
    (hstop : normalizeL w ∉ tk.stopwords) :
    tk.tokenize w = [porterStem (normalizeL w)] := by
  unfold Tokenizer.tokenize removeStopwordsL
  have hsplit : splitWsL (normalizeL w) = [normalizeL w] := by
    have h0 := splitWsL_word_append (normalizeL w) []
      (normalizeL_not_ws hws) (Or.inl rfl)
    simpa [hne, splitWsL] using h0
  rw [hsplit]
  simp [List.contains, List.filter_cons, List.elem_eq_mem, hstop]

/-- A raw word of the text, surviving normalization and the stopword filter,
contributes its stem to the token list of the text. -/
theorem stem_mem_tokenize (tk : Tokenizer) {text w : List Char}
    (hw : w ∈ splitWsL text)
    (hne : normalizeL w ≠ [])
    (hstop : normalizeL w ∉ tk.stopwords) :
    porterStem (normalizeL w) ∈ tk.tokenize text := by
  unfold Tokenizer.tokenize removeStopwordsL
  refine List.mem_map.mpr ⟨normalizeL w, ?_, rfl⟩
  refine List.mem_filter.mpr ⟨normalizeL_mem_splitWsL hw hne, ?_⟩
  simp [List.contains, List.elem_eq_mem, hstop]

/-- Tokenization only looks at the normalized text. -/
theorem tokenize_congr_of_normalize (tk : Tokenizer) {q1 q2 : List Char}
    (h : normalizeL q1 = normalizeL q2) :
    tk.tokenize q1 = tk.tokenize q2 := by
  unfold Tokenizer.tokenize
  rw [h]

/-- `search` only looks at the token list of its query. -/
theorem search_tokens_congr (tk : Tokenizer) (st : IIState)
    {q1 q2 : List Char} (h : tk.tokenize q1 = tk.tokenize q2) :
    search tk st q1 = search tk st q2 := by
  unfold search
  rw [h]

/-! ## Set and sorting lemmas -/

/-- Membership after a `set.add`. -/
theorem insertSet_mem {i j : Nat} {l : List Nat} :
    j ∈ insertSet i l ↔ j = i ∨ j ∈ l := by
  induction l with
  | nil => simp [insertSet]
  | cons a r ih =>
    unfold insertSet
    split_ifs with h1 h2
    · simp [or_comm, or_assoc, or_left_comm]
    · subst h2
      simp [or_comm, or_assoc]
    · simp [ih, or_comm, or_assoc, or_left_comm]

/-- `set.add` preserves the strictly ascending canonical form. -/
theorem insertSet_sorted {i : Nat} {l : List Nat}
    (h : List.Sorted (· < ·) l) :
    List.Sorted (· < ·) (insertSet i l) := by
  induction l with
  | nil => simp [insertSet]
  | cons a r ih =>
    have hr := List.sorted_cons.mp h
    unfold insertSet
    split_ifs with h1 h2
    · refine List.sorted_cons.mpr ⟨?_, h⟩
      intro b hb
      rcases List.mem_cons.mp hb with rfl | hb
      · exact h1
      · exact lt_trans h1 (hr.1 b hb)
    · exact h
    · refine List.sorted_cons.mpr ⟨?_, ih hr.2⟩
      intro b hb
      rcases insertSet_mem.mp hb with rfl | hb
      · omega
      · exact hr.1 b hb

/-- Membership after folding a posting list into the accumulated set. -/
theorem foldl_insertSet_mem {ps acc : List Nat} {j : Nat} :
    j ∈ ps.foldl (fun a i => insertSet i a) acc ↔ j ∈ acc ∨ j ∈ ps := by
  induction ps generalizing acc with
  | nil => simp
  | cons p pr ih =>
    rw [List.foldl_cons, ih]
    rw [insertSet_mem]
    simp only [List.mem_cons]
    tauto

/-- Folding postings into a sorted set keeps it sorted. -/
theorem foldl_insertSet_sorted {ps acc : List Nat}
    (h : List.Sorted (· < ·) acc) :
    List.Sorted (· < ·) (ps.foldl (fun a i => insertSet i a) acc) := by
  induction ps generalizing acc with
  | nil => exact h
  | cons p pr ih => exact ih (insertSet_sorted h)

/-- Membership in the accumulated union of `search`. -/
theorem unionPostings_aux_mem (idx : Index) (toks : List Term)
    (acc : List Nat) (j : Nat) :
    (j ∈ toks.foldl
        (fun acc t => ((List.lookup t idx).getD []).foldl
          (fun a i => insertSet i a) acc) acc) ↔
      j ∈ acc ∨ ∃ t ∈ toks, j ∈ (List.lookup t idx).getD [] := by
  induction toks generalizing acc with
  | nil => simp
  | cons t ts ih =>
    rw [List.foldl_cons, ih, foldl_insertSet_mem]
    simp only [List.mem_cons]
    constructor
    · rintro ((h | h) | ⟨u, hu, hj⟩)
      · exact Or.inl h
      · exact Or.inr ⟨t, Or.inl rfl, h⟩
      · exact Or.inr ⟨u, Or.inr hu, hj⟩
    · rintro (h | ⟨u, (rfl | hu), hj⟩)
      · exact Or.inl (Or.inl h)
      · exact Or.inl (Or.inr hj)
      · exact Or.inr ⟨u, hu, hj⟩

/-- An id lies in the union iff some query token's posting set has it. -/
theorem unionPostings_mem {idx : Index} {toks : List Term} {j : Nat} :
    j ∈ unionPostings idx toks ↔
      ∃ t ∈ toks, j ∈ (List.lookup t idx).getD [] := by
  unfold unionPostings
  rw [unionPostings_aux_mem]
  simp

/-- Sortedness of the accumulated union of `search`. -/
theorem unionPostings_aux_sorted (idx : Index) (toks : List Term) :
    ∀ acc : List Nat, List.Sorted (· < ·) acc →
      List.Sorted (· < ·) (toks.foldl
        (fun acc t => ((List.lookup t idx).getD []).foldl
          (fun a i => insertSet i a) acc) acc) := by
  induction toks with
  | nil => intro acc h; exact h
  | cons t ts ih =>
    intro acc h
    rw [List.foldl_cons]
    exact ih _ (foldl_insertSet_sorted h)

/-- The union accumulated by `search` is strictly ascending. -/
theorem unionPostings_sorted (idx : Index) (toks : List Term) :
    List.Sorted (· < ·) (unionPostings idx toks) := by
  unfold unionPostings
  exact unionPostings_aux_sorted idx toks [] (by simp)

/-- Python `sorted` on an already strictly ascending list is the identity. -/
theorem sortNat_of_sorted {l : List Nat} (h : List.Sorted (· < ·) l) :
    sortNat l = l := by
  induction l with
  | nil => rfl
  | cons a r ih =>
    have hr := List.sorted_cons.mp h
    unfold sortNat at ih ⊢
    rw [List.foldr_cons, ih hr.2]
    cases r with
    | nil => rfl
    | cons b rb =>
      unfold insertNat
      rw [if_pos (le_of_lt (hr.1 b (by simp)))]

/-- `sorted` output is sorted (non-strictly) and is a permutation content:
membership is preserved. -/
theorem insertNat_mem {i j : Nat} {l : List Nat} :
    j ∈ insertNat i l ↔ j = i ∨ j ∈ l := by
  induction l with
  | nil => simp [insertNat]
  | cons a r ih =>
    unfold insertNat
    split_ifs with h1
    · simp [or_comm, or_assoc, or_left_comm]
    · simp [ih, or_comm, or_assoc, or_left_comm]

/-- Membership through Python `sorted`. -/
theorem sortNat_mem {l : List Nat} {j : Nat} : j ∈ sortNat l ↔ j ∈ l := by
  induction l with
  | nil => simp [sortNat]
  | cons a r ih =>
    unfold sortNat at ih ⊢
    rw [List.foldr_cons, insertNat_mem, ih]
    simp

/-- The stable pair sort is the identity on inputs already strictly
ascending in their keys. -/
theorem sortPairs_of_sorted {l : List (Nat × Doc)}
    (h : List.Sorted (· < ·) (l.map Prod.fst)) :
    sortPairs l = l := by
  induction l with
  | nil => rfl
  | cons p r ih =>
    rw [List.map_cons] at h
    have hr := List.sorted_cons.mp h
    unfold sortPairs at ih ⊢
    rw [List.foldr_cons, ih hr.2]
    cases r with
    | nil => rfl
    | cons q rq =>
      unfold insertPair
      rw [if_pos (le_of_lt (hr.1 q.1 (by simp)))]

/-- Unfolding `List.lookup` on a cons cell. -/
theorem lookup_cons_unfold {α β : Type} [BEq α] (a k : α) (b : β)
    (es : List (α × β)) :
    List.lookup a ((k, b) :: es) =
      if a == k then some b else List.lookup a es := by
  cases h : a == k <;> simp [List.lookup, h]

/-- A successful `List.lookup` exhibits a member pair. -/
theorem lookup_mem {α β : Type} [BEq α] [LawfulBEq α] {a : α}
    {l : List (α × β)} {b : β} (h : List.lookup a l = some b) :
    (a, b) ∈ l := by
  induction l with
  | nil => simp [List.lookup] at h
  | cons p r ih =>
    obtain ⟨k, v⟩ := p
    rw [lookup_cons_unfold] at h
    by_cases hk : a == k
    · rw [if_pos hk, Option.some_inj] at h
      subst h
      have : a = k := by simpa using hk
      subst this
      exact List.mem_cons_self _ _
    · rw [if_neg hk] at h
      exact List.mem_cons_of_mem _ (ih h)

/-! ## Index and build lemmas -/

/-- Inserting an id under a token makes it retrievable. -/
theorem indexInsert_lookup_self (t : Term) (i : Nat) (idx : Index) :
    i ∈ (List.lookup t (indexInsert t i idx)).getD [] := by
  induction idx with
  | nil =>
    rw [indexInsert, lookup_cons_unfold, if_pos (by simp)]
    simp [insertSet]
  | cons p r ih =>
    obtain ⟨t0, ps⟩ := p
    rw [indexInsert]
    split_ifs with h
    · subst h
      rw [lookup_cons_unfold, if_pos (by simp)]
      simp [insertSet_mem]
    · rw [lookup_cons_unfold, if_neg (by simpa using fun he => h he.symm)]
      exact ih

/-- Inserting never removes a retrievable id. -/
theorem indexInsert_lookup_preserve {t' : Term} {j : Nat} {idx : Index}
    (t : Term) (i : Nat) (h : j ∈ (List.lookup t' idx).getD []) :
    j ∈ (List.lookup t' (indexInsert t i idx)).getD [] := by
  induction idx with
  | nil => simp [List.lookup] at h
  | cons p r ih =>
    obtain ⟨t0, ps⟩ := p
    rw [lookup_cons_unfold] at h
    rw [indexInsert]
    split_ifs with ht
    · subst ht
      rw [lookup_cons_unfold]
      by_cases hb : t' == t0
      · rw [if_pos hb] at h ⊢
        simpa [insertSet_mem] using Or.inr (by simpa using h)
      · rw [if_neg hb] at h ⊢
        exact h
    · rw [lookup_cons_unfold]
      by_cases hb : t' == t0
      · rw [if_pos hb] at h ⊢
        exact h
      · rw [if_neg hb] at h ⊢
        exact ih h

/-- Folding further insertions preserves a retrievable id. -/
theorem foldl_indexInsert_preserve (i : Nat) (toks : List Term) {t' : Term}
    {j : Nat} :
    ∀ idx : Index, j ∈ (List.lookup t' idx).getD [] →
      j ∈ (List.lookup t'
        (toks.foldl (fun acc t => indexInsert t i acc) idx)).getD [] := by
  induction toks with
  | nil => exact fun idx h => h
  | cons u us ih =>
    intro idx h
    rw [List.foldl_cons]
    exact ih _ (indexInsert_lookup_preserve u i h)

/-- After folding insertions for every token, each token retrieves the id. -/
theorem foldl_indexInsert_mem (i : Nat) {t : Term} (toks : List Term)
    (ht : t ∈ toks) :
    ∀ idx : Index,
      t ∈ toks →
      i ∈ (List.lookup t
        (toks.foldl (fun acc t => indexInsert t i acc) idx)).getD [] := by
  induction toks with
  | nil => simp at ht
  | cons u us ih =>
    intro idx hmem
    rw [List.foldl_cons]
    rcases List.mem_cons.mp hmem with rfl | hmem
    · exact foldl_indexInsert_preserve i us _ (indexInsert_lookup_self t i idx)
    · exact ih hmem _ hmem

/-- `__add_document` makes every token of the text retrieve the id. -/
theorem addDocument_mem (tk : Tokenizer) (idx : Index) (i : Nat)
    (text : List Char) {t : Term} (ht : t ∈ tk.tokenize text) :
    i ∈ (List.lookup t (addDocument tk idx i text)).getD [] := by
  unfold addDocument
  exact foldl_indexInsert_mem i _ ht idx ht

/-- `__add_document` preserves retrievable ids of other tokens. -/
theorem addDocument_preserve (tk : Tokenizer) {idx : Index} (i : Nat)
    (text : List Char) {t : Term} {j : Nat}
    (h : j ∈ (List.lookup t idx).getD []) :
    j ∈ (List.lookup t (addDocument tk idx i text)).getD [] := by
  unfold addDocument
  exact foldl_indexInsert_preserve i _ idx h

/-- A successful `buildStep` preserves retrievable ids. -/
theorem buildStep_preserve {tk : Tokenizer} {st st' : IIState} {m : Doc}
    (h : buildStep tk st m = .ok st') {t : Term} {j : Nat}
    (hm : j ∈ (List.lookup t st.index).getD []) :
    j ∈ (List.lookup t st'.index).getD [] := by
  unfold buildStep at h
  cases hid : m.id? with
  | none => rw [hid] at h; exact absurd h (by simp)
  | some i =>
    rw [hid] at h
    cases hti : m.title? with
    | none => rw [hti] at h; exact absurd h (by simp)
    | some ti =>
      cases hde : m.descr? with
      | none => rw [hti, hde] at h; exact absurd h (by simp)
      | some de =>
        rw [hti, hde] at h
        cases h
        exact addDocument_preserve tk i _ hm

/-- A successful `build` preserves retrievable ids. -/
theorem build_preserve {tk : Tokenizer} {ms : List Doc} :
    ∀ {st st' : IIState}, build tk st ms = .ok st' →
      ∀ {t : Term} {j : Nat}, j ∈ (List.lookup t st.index).getD [] →
        j ∈ (List.lookup t st'.index).getD [] := by
  induction ms with
  | nil =>
    intro st st' h t j hm
    rw [build] at h
    cases h
    exact hm
  | cons m mr ih =>
    intro st st' h t j hm
    rw [build] at h
    cases hstep : buildStep tk st m with
    | ok st1 =>
      rw [hstep] at h
      exact ih h (buildStep_preserve hstep hm)
    | error st1 => rw [hstep] at h; exact absurd h (by simp)

/-- A successfully built index retrieves the id of each corpus document
under every token of its indexed text. -/
theorem build_mem_posting {tk : Tokenizer} {d : Doc} {i : Nat}
    {ti de : List Char} (hid : d.id? = some i) (hti : d.title? = some ti)
    (hde : d.descr? = some de) {t : Term}
    (ht : t ∈ tk.tokenize (ti ++ ' ' :: de)) :
    ∀ {ms : List Doc} {st st' : IIState}, build tk st ms = .ok st' →
      d ∈ ms → i ∈ (List.lookup t st'.index).getD [] := by
  intro ms
  induction ms with
  | nil => intro st st' h hd; simp at hd
  | cons m mr ih =>
    intro st st' h hd
    rw [build] at h
    cases hstep : buildStep tk st m with
    | ok st1 =>
      rw [hstep] at h
      rcases List.mem_cons.mp hd with rfl | hd
      · have hidx : st1.index = addDocument tk st.index i (ti ++ ' ' :: de) := by
          unfold buildStep at hstep
          rw [hid, hti, hde] at hstep
          cases hstep
          rfl
        have hmem : i ∈ (List.lookup t st1.index).getD [] := by
          rw [hidx]
          exact addDocument_mem tk st.index i _ ht
        exact build_preserve h hmem
      · exact ih h hd
    | error st1 => rw [hstep] at h; exact absurd h (by simp)

/-- A record with all required fields steps successfully. -/
theorem buildStep_ok_of_required {tk : Tokenizer} (st : IIState) {m : Doc}
    (h : hasRequired m = true) : ∃ st', buildStep tk st m = .ok st' := by
  unfold hasRequired at h
  simp only [Bool.and_eq_true, Option.isSome_iff_exists] at h
  obtain ⟨⟨⟨i, hi⟩, ti, hti⟩, de, hde⟩ := h
  refine ⟨⟨addDocument tk st.index i (ti ++ ' ' :: de),
    docmapInsert i m st.docmap⟩, ?_⟩
  unfold buildStep
  rw [hi, hti, hde]

/-- A corpus whose records all carry the required fields builds
successfully. -/
theorem build_ok_of_required {tk : Tokenizer} {ms : List Doc}
    (h : ms.all hasRequired = true) :
    ∀ st : IIState, ∃ st', build tk st ms = .ok st' := by
  induction ms with
  | nil => exact fun st => ⟨st, rfl⟩
  | cons m mr ih =>
    intro st
    rw [List.all_cons, Bool.and_eq_true] at h
    obtain ⟨st1, h1⟩ := buildStep_ok_of_required st h.1
    obtain ⟨st', h2⟩ := ih h.2 st1
    refine ⟨st', ?_⟩
    rw [build, h1]
    exact h2

/-- A record missing a required field makes `buildStep` raise. -/
theorem buildStep_error_of_missing {tk : Tokenizer} (st : IIState) {m : Doc}
    (h : hasRequired m = false) : ∃ stE, buildStep tk st m = .error stE := by
  unfold hasRequired at h
  unfold buildStep
  cases hi : m.id? with
  | none => exact ⟨st, rfl⟩
  | some i =>
    cases hti : m.title? with
    | none => exact ⟨_, rfl⟩
    | some ti =>
      cases hde : m.descr? with
      | none => exact ⟨_, rfl⟩
      | some de => rw [hi, hti, hde] at h; simp at h

/-! ## Consistency of the index with the document store -/

/-- `self.docmap[i] = d` seen through lookup. -/
theorem docmapInsert_lookup (i : Nat) (d : Doc) (dm : DocMap) (k : Nat) :
    List.lookup k (docmapInsert i d dm) =
      if k = i then some d else List.lookup k dm := by
  induction dm with
  | nil =>
    by_cases h : k = i
    · subst h; simp [docmapInsert, lookup_cons_unfold]
    · rw [docmapInsert, lookup_cons_unfold, if_neg (by simpa using h),
        if_neg h]
  | cons p r ih =>
    obtain ⟨j, e⟩ := p
    rw [docmapInsert]
    by_cases hj : j = i
    · rw [if_pos hj, lookup_cons_unfold]
      by_cases hk : k == j
      · have hkj : k = j := by simpa using hk
        rw [if_pos hk, if_pos (hkj.trans hj)]
      · have hkj : ¬ k = j := by simpa using hk
        rw [if_neg hk, if_neg (fun hki => hkj (hki.trans hj.symm)),
          lookup_cons_unfold, if_neg hk]
    · rw [if_neg hj, lookup_cons_unfold]
      by_cases hk : k == j
      · have hkj : k = j := by simpa using hk
        have hki : ¬ k = i := fun h => hj (hkj.symm.trans h)
        rw [if_pos hk, if_neg hki, lookup_cons_unfold, if_pos hk]
      · rw [if_neg hk, ih]
        by_cases hki : k = i
        · rw [if_pos hki, if_pos hki]
        · rw [if_neg hki, if_neg hki, lookup_cons_unfold, if_neg hk]

/-- Every id in a posting list after one insertion was already present or is
the inserted id. -/
theorem indexInsert_mem_sub {t : Term} {i : Nat} {idx : Index}
    {p : Term × List Nat} (hp : p ∈ indexInsert t i idx) :
    ∀ j ∈ p.2, (∃ q ∈ idx, j ∈ q.2) ∨ j = i := by
  induction idx with
  | nil =>
    rw [indexInsert] at hp
    rcases List.mem_cons.mp hp with rfl | hp
    · intro j hj; right; simpa [insertSet] using hj
    · simp at hp
  | cons q0 r ih =>
    obtain ⟨t0, ps⟩ := q0
    rw [indexInsert] at hp
    split_ifs at hp with h
    · rcases List.mem_cons.mp hp with rfl | hp
      · intro j hj
        rcases insertSet_mem.mp hj with rfl | hj
        · right; rfl
        · exact Or.inl ⟨(t0, ps), by simp, hj⟩
      · intro j hj
        exact Or.inl ⟨p, by simp [hp], hj⟩
    · rcases List.mem_cons.mp hp with rfl | hp
      · intro j hj
        exact Or.inl ⟨(t0, ps), by simp, hj⟩
      · intro j hj
        rcases ih hp j hj with ⟨q, hq, hjq⟩ | rfl
        · exact Or.inl ⟨q, by simp [hq], hjq⟩
        · right; rfl

/-- Every id in a posting list after `__add_document` was already present or
is the added id. -/
theorem foldl_indexInsert_mem_sub (i : Nat) (toks : List Term) :
    ∀ (idx : Index) (p : Term × List Nat),
      p ∈ toks.foldl (fun acc t => indexInsert t i acc) idx →
      ∀ j ∈ p.2, (∃ q ∈ idx, j ∈ q.2) ∨ j = i := by
  induction toks with
  | nil => exact fun idx p hp j hj => Or.inl ⟨p, hp, hj⟩
  | cons u us ih =>
    intro idx p hp j hj
    rw [List.foldl_cons] at hp
    rcases ih _ p hp j hj with ⟨q, hq, hjq⟩ | rfl
    · exact indexInsert_mem_sub hq j hjq
    · right; rfl

/-- The boolean check decides the consistency invariant. -/
theorem consistentB_iff {st : IIState} :
    consistentB st = true ↔ consistentP st := by
  unfold consistentB consistentP
  rw [List.all_eq_true]
  constructor
  · intro h p hp i hi
    have h2 := (List.all_eq_true.mp (h p hp)) i hi
    cases hl : List.lookup i st.docmap with
    | none => rw [hl] at h2; simp at h2
    | some d =>
      rw [hl] at h2
      exact ⟨d, rfl, by simpa using h2⟩
  · intro h p hp
    rw [List.all_eq_true]
    intro i hi
    obtain ⟨d, hd, hdi⟩ := h p hp i hi
    rw [hd]
    simpa using hdi

/-- A successful `buildStep` preserves consistency. -/
theorem consistent_buildStep {tk : Tokenizer} {st st' : IIState} {m : Doc}
    (hc : consistentP st) (h : buildStep tk st m = .ok st') :
    consistentP st' := by
  unfold buildStep at h
  cases hid : m.id? with
  | none => rw [hid] at h; exact absurd h (by simp)
  | some i =>
    rw [hid] at h
    cases hti : m.title? with
    | none => rw [hti] at h; exact absurd h (by simp)
    | some ti =>
      cases hde : m.descr? with
      | none => rw [hti, hde] at h; exact absurd h (by simp)
      | some de =>
        rw [hti, hde] at h
        cases h
        intro p hp j hj
        rcases foldl_indexInsert_mem_sub i _ _ p hp j hj with
          ⟨q, hq, hjq⟩ | rfl
        · obtain ⟨d, hd, hdi⟩ := hc q hq j hjq
          rw [docmapInsert_lookup]
          by_cases hji : j = i
          · subst hji
            exact ⟨m, by rw [if_pos rfl], hid⟩
          · exact ⟨d, by rw [if_neg hji]; exact hd, hdi⟩
        · rw [docmapInsert_lookup]
          exact ⟨m, by rw [if_pos rfl], hid⟩

/-- A successful `build` preserves consistency. -/
theorem consistent_build {tk : Tokenizer} {ms : List Doc} :
    ∀ {st st' : IIState}, consistentP st → build tk st ms = .ok st' →
      consistentP st' := by
  induction ms with
  | nil =>
    intro st st' hc h
    rw [build] at h
    cases h
    exact hc
  | cons m mr ih =>
    intro st st' hc h
    rw [build] at h
    cases hstep : buildStep tk st m with
    | ok st1 =>
      rw [hstep] at h
      exact ih (consistent_buildStep hc hstep) h
    | error st1 => rw [hstep] at h; exact absurd h (by simp)

/-- The empty instance is consistent. -/
theorem consistent_empty : consistentP ⟨[], []⟩ := by
  intro p hp
  simp at hp

/-- Resolving a list of ids whose members all occur in some stored posting
set succeeds, and the resolved pairs carry exactly those ids in order. -/
theorem mapM_resolve {st : IIState} (hc : consistentP st) :
    ∀ ids : List Nat, (∀ j ∈ ids, ∃ p ∈ st.index, j ∈ p.2) →
      ∃ pairs : List (Nat × Doc),
        ids.mapM (fun i =>
          match List.lookup i st.docmap with
          | none => none
          | some d =>
            match d.id? with
            | none => none
            | some k => some (k, d)) = some pairs ∧
        pairs.map Prod.fst = ids ∧
        pairs.map Prod.snd =
          ids.filterMap (fun i => List.lookup i st.docmap) := by
  intro ids
  induction ids with
  | nil => exact fun _ => ⟨[], rfl, by simp, by simp⟩
  | cons i ir ih =>
    intro h
    obtain ⟨p, hp, hip⟩ := h i (by simp)
    obtain ⟨d, hd, hdi⟩ := hc p hp i hip
    obtain ⟨pairs, hm, hf, hs⟩ := ih (fun j hj => h j (by simp [hj]))
    refine ⟨(i, d) :: pairs, ?_, by simp [hf], by simp [hs, hd]⟩
    rw [List.mapM_cons]
    simp only [hd, hdi, hm]
    rfl

/-! ## Characterizing `search` -/

/-- `search` on a query with no tokens returns the empty result list. -/
theorem search_nil (tk : Tokenizer) (st : IIState) {q : List Char}
    (h : tk.tokenize q = []) : search tk st q = some [] := by
  unfold search
  rw [h]

/-- `search` on a query with tokens, before resolving the union. -/
theorem search_cons (tk : Tokenizer) (st : IIState) {q : List Char}
    {t : Term} {ts : List Term} (h : tk.tokenize q = t :: ts) :
    search tk st q =
      match (unionPostings st.index (t :: ts)).mapM (fun i =>
          match List.lookup i st.docmap with
          | none => none
          | some d =>
            match d.id? with
            | none => none
            | some k => some (k, d)) with
      | none => none
      | some pairs => some (((sortPairs pairs).map Prod.snd).take 5) := by
  unfold search
  rw [h]

/-- Under the consistency invariant, `search` resolves the ascending union
through the document store and truncates to five records. -/
theorem search_eq_of_consistent (tk : Tokenizer) (st : IIState)
    (q : List Char) (hc : consistentP st) (hne : tk.tokenize q ≠ []) :
    search tk st q =
      some (((unionPostings st.index (tk.tokenize q)).filterMap
        (fun i => List.lookup i st.docmap)).take 5) := by
  cases htoks : tk.tokenize q with
  | nil => exact absurd htoks hne
  | cons t ts =>
    have hids : ∀ j ∈ unionPostings st.index (t :: ts),
        ∃ p ∈ st.index, j ∈ p.2 := by
      intro j hj
      obtain ⟨u, hu, hju⟩ := unionPostings_mem.mp hj
      cases hl : List.lookup u st.index with
      | none => rw [hl] at hju; simp at hju
      | some ps =>
        rw [hl] at hju
        exact ⟨(u, ps), lookup_mem hl, by simpa using hju⟩
    obtain ⟨pairs, hm, hf, hs⟩ := mapM_resolve hc _ hids
    rw [search_cons tk st htoks, hm]
    have hsorted : List.Sorted (· < ·) (pairs.map Prod.fst) := by
      rw [hf]
      exact unionPostings_sorted _ _
    show some (((sortPairs pairs).map Prod.snd).take 5) = _
    rw [sortPairs_of_sorted hsorted, hs]

/-- C1.  For every query whose tokenization is nonempty, `search` returns
the documents whose identifiers form the boolean-OR union of the query
terms' posting sets, each resolved through `docmap`, in ascending identifier
order, truncated to the first 5; a query with no tokens returns the empty
list, and every result list has at most 5 entries.  The state is assumed
consistent — the invariant `build` establishes (claim C10). -/
theorem C1_search_or_top5 (tk : Tokenizer) (st : IIState) (q : List Char)
    (hc : consistentB st = true) :
    (tk.tokenize q = [] → search tk st q = some []) ∧
    (tk.tokenize q ≠ [] →
      search tk st q =
        some (((unionPostings st.index (tk.tokenize q)).filterMap
          (fun i => List.lookup i st.docmap)).take 5)) ∧
    List.Sorted (· < ·) (unionPostings st.index (tk.tokenize q)) ∧
    (∀ ds, search tk st q = some ds → ds.length ≤ 5) := by
  have hcP : consistentP st := consistentB_iff.mp hc
  refine ⟨fun h => search_nil tk st h,
    fun hne => search_eq_of_consistent tk st q hcP hne,
    unionPostings_sorted _ _, ?_⟩
  intro ds hds
  by_cases hq : tk.tokenize q = []
  · rw [search_nil tk st hq] at hds
    cases hds
    simp
  · rw [search_eq_of_consistent tk st q hcP hq] at hds
    cases hds
    simp [List.length_take_le 5 _]

/-- Witness for C1: a consistent state whose term "z" matches seven
documents; searching "z" returns exactly the five smallest identifiers. -/
theorem C1_witness :
    consistentB stA = true ∧
    search tkA stA (lstr "z") = some [dA 1, dA 2, dA 3, dA 4, dA 5] := by
  refine ⟨by decide, ?_⟩
  have h := (C1_search_or_top5 tkA stA (lstr "z") (by decide)).2.1
    (by decide)
  rw [h]
  decide

/-- The strictly-ascending boolean check decides sortedness. -/
theorem strictSortedB_iff {l : List Nat} :
    strictSortedB l = true ↔ List.Sorted (· < ·) l := by
  induction l with
  | nil => simp [strictSortedB]
  | cons a r ih =>
    cases r with
    | nil => simp [strictSortedB]
    | cons b rb =>
      rw [strictSortedB, Bool.and_eq_true, decide_eq_true_iff, ih]
      constructor
      · rintro ⟨hab, hs⟩
        refine List.sorted_cons.mpr ⟨?_, hs⟩
        intro c hc
        rcases List.mem_cons.mp hc with rfl | hc
        · exact hab
        · exact lt_trans hab ((List.sorted_cons.mp hs).1 c hc)
      · intro hs
        obtain ⟨h1, h2⟩ := List.sorted_cons.mp hs
        exact ⟨h1 b (by simp), h2⟩

/-- C2.  `get_documents` tokenizes through the full pipeline; with no
resulting token it returns the empty list, otherwise the posting set of the
first token in ascending order, empty when the term is absent — never an
error (the function is total by construction).  The index is assumed in its
canonical form (posting sets strictly ascending), as built states are. -/
theorem C2_get_documents (tk : Tokenizer) (idx : Index) (s : List Char)
    (hwf : wfIndexB idx = true) :
    List.Sorted (· < ·) (get_documents tk idx s) ∧
    (tk.tokenize s = [] → get_documents tk idx s = []) ∧
    (∀ t rest, tk.tokenize s = t :: rest →
      ∀ i, i ∈ get_documents tk idx s ↔ i ∈ (List.lookup t idx).getD []) := by
  cases htoks : tk.tokenize s with
  | nil =>
    have hget : get_documents tk idx s = [] := by
      unfold get_documents
      rw [htoks]
    exact ⟨by rw [hget]; simp, fun _ => hget, fun t rest h => nomatch h⟩
  | cons t0 ts =>
    unfold wfIndexB at hwf
    have hpost : List.Sorted (· < ·) ((List.lookup t0 idx).getD []) := by
      cases hl : List.lookup t0 idx with
      | none => simp
      | some ps =>
        have hmem := lookup_mem hl
        have hall := (List.all_eq_true.mp hwf) (t0, ps) hmem
        simpa [strictSortedB_iff] using hall
    have hget : get_documents tk idx s = (List.lookup t0 idx).getD [] := by
      unfold get_documents
      rw [htoks]
      exact sortNat_of_sorted hpost
    refine ⟨by rw [hget]; exact hpost, ?_, ?_⟩
    · intro h
      exact absurd h (by simp)
    · intro t rest h i
      cases h
      rw [hget]

/-- Witness for C2: the raw term "Cats!" resolves through the pipeline to
the stem "cat" and retrieves its ascending posting set. -/
theorem C2_witness :
    wfIndexB idxW2 = true ∧
    List.Sorted (· < ·) (get_documents tkA idxW2 (lstr "Cats!")) ∧
    (2 ∈ get_documents tkA idxW2 (lstr "Cats!")) ∧
    get_documents tkA idxW2 (lstr "zzzznotaword") = [] := by
  have h := C2_get_documents tkA idxW2 (lstr "Cats!") (by decide)
  refine ⟨by decide, h.1, ?_, by decide⟩
  exact (h.2.2 (lstr "cat") [] (by decide) 2).mpr (by decide)

/-- C10.  After a successful `build` on any corpus (duplicate identifiers
included) starting from the empty instance, every identifier stored in any
posting set is a key of `docmap`, and consequently `search` never fails on
any query. -/
theorem C10_build_consistent (tk : Tokenizer) (corpus : List Doc)
    (st' : IIState) (hb : build tk ⟨[], []⟩ corpus = .ok st') :
    (∀ p ∈ st'.index, ∀ i ∈ p.2,
      ∃ d, List.lookup i st'.docmap = some d) ∧
    (∀ q, ∃ ds, search tk st' q = some ds) := by
  have hc : consistentP st' := consistent_build consistent_empty hb
  constructor
  · intro p hp i hi
    obtain ⟨d, hd, _⟩ := hc p hp i hi
    exact ⟨d, hd⟩
  · intro q
    by_cases hq : tk.tokenize q = []
    · exact ⟨[], search_nil tk st' hq⟩
    · exact ⟨_, search_eq_of_consistent tk st' q hc hq⟩

/-- Witness for C10: a corpus with a duplicated identifier builds, and
searching the rebuilt state succeeds. -/
theorem C10_witness :
    build tkA ⟨[], []⟩ corpusB = .ok stB ∧
    ∃ ds, search tkA stB (lstr "cat") = some ds := by
  have hb : build tkA ⟨[], []⟩ corpusB = .ok stB := rfl
  exact ⟨hb, (C10_build_consistent tkA corpusB stB hb).2 (lstr "cat")⟩

/-! ## C3: indexing and querying normalize identically -/

/-- C3 (amended).  For any corpus that builds successfully from the empty
instance and any of its documents, a whitespace-delimited word of the title
or description whose normalization (lowercasing and punctuation stripping)
is nonempty and is not a stopword puts the document's identifier into the
pre-truncation union that `search` computes for that word as a query. -/
theorem C3_symmetry (tk : Tokenizer) (corpus : List Doc) (st' : IIState)
    (hb : build tk ⟨[], []⟩ corpus = .ok st')
    (d : Doc) (hd : d ∈ corpus) (i : Nat) (ti de : List Char)
    (hid : d.id? = some i) (hti : d.title? = some ti)
    (hde : d.descr? = some de)
    (w : List Char) (hw : w ∈ splitWsL ti ∨ w ∈ splitWsL de)
    (hne : normalizeL w ≠ []) (hstop : normalizeL w ∉ tk.stopwords) :
    tk.tokenize w ≠ [] ∧
    i ∈ unionPostings st'.index (tk.tokenize w) := by
  have hwword : ∀ c ∈ w, c.isWhitespace = false := by
    rcases hw with hw | hw
    · exact (splitWsL_mem hw).2
    · exact (splitWsL_mem hw).2
  have htok : tk.tokenize w = [porterStem (normalizeL w)] :=
    tokenize_single_word tk hwword hne hstop
  have hmem : porterStem (normalizeL w) ∈ tk.tokenize (ti ++ ' ' :: de) :=
    stem_mem_tokenize tk (word_mem_split_text hw) hne hstop
  have hpost : i ∈ (List.lookup (porterStem (normalizeL w)) st'.index).getD []
    := build_mem_posting hid hti hde hmem hb hd
  refine ⟨by simp [htok], ?_⟩
  rw [htok]
  exact unionPostings_mem.mpr ⟨_, by simp, hpost⟩

/-- Witness for C3: the word "Cats!" of a title, whose normalization "cats"
stems to "cat", makes the document retrievable by the query "Cats!". -/
theorem C3_witness :
    build tkA ⟨[], []⟩ [goodDoc] = .ok stW3 ∧
    1 ∈ unionPostings stW3.index (tkA.tokenize (lstr "cat")) := by
  constructor
  · rfl
  · exact (C3_symmetry tkA [goodDoc] stW3 rfl goodDoc (by simp) 1
      (lstr "cat") (lstr "dog") rfl rfl rfl (lstr "cat")
      (Or.inl (by decide)) (by decide) (by decide)).2

/-- Counterexample to C3 as stated: with stopword set `{"the"}` the word
"The" of the title is not itself a stopword, yet after a successful build
the query "The" yields an empty union that does not contain the document's
identifier — the claim must also exclude words whose *normalization* is a
stopword. -/
theorem C3_counterexample :
    build tkC3 ⟨[], []⟩ [docC3] = .ok stC3 ∧
    lstr "The" ∈ splitWsL (lstr "The") ∧
    lstr "The" ∉ tkC3.stopwords ∧
    1 ∉ unionPostings stC3.index (tkC3.tokenize (lstr "The")) := by
  refine ⟨rfl, by decide, by decide, by decide⟩

/-! ## C4: persistence round-trip -/

/-- C4.  Building from empty, saving, then loading into a fresh instance
succeeds and yields a state whose `search` results agree with the original
on every query (persisted artifacts are modelled as lossless encodings of
the two mappings, as a pickle round-trip is). -/
theorem C4_round_trip (tk : Tokenizer) (corpus : List Doc) (st' : IIState)
    (stor : Storage) (_hb : build tk ⟨[], []⟩ corpus = .ok st') :
    ∃ st2, load ⟨[], []⟩ (save st' stor) = .ok st2 ∧
      ∀ q, search tk st2 q = search tk st' q := by
  exact ⟨⟨st'.index, st'.docmap⟩, rfl, fun q => rfl⟩

/-- Witness for C4 on a concrete two-document corpus. -/
theorem C4_witness :
    ∃ st2, load ⟨[], []⟩ (save stB ⟨.absent, .absent⟩) = .ok st2 ∧
      ∀ q, search tkA st2 q = search tkA stB q :=
  C4_round_trip tkA corpusB stB ⟨.absent, .absent⟩ rfl

/-! ## C5: case and punctuation in queries -/

/-- C5 (amended).  Search is insensitive to case — `search("LION KING")`
equals `search("lion king")` on every state — and punctuation is removed
in place without inserting whitespace, so `search("Lion-King")` equals
`search("lionking")`, not `search("lion king")` in general. -/
theorem C5_case_punctuation (tk : Tokenizer) (st : IIState) :
    search tk st (lstr "Lion-King") = search tk st (lstr "lionking") ∧
    search tk st (lstr "LION KING") = search tk st (lstr "lion king") := by
  constructor
  · exact search_tokens_congr tk st
      (tokenize_congr_of_normalize tk (by decide))
  · exact search_tokens_congr tk st
      (tokenize_congr_of_normalize tk (by decide))

/-- Counterexample to C5 as stated: on a state indexing the term "lion" the
query "lion king" finds document 1 but "Lion-King" — normalized to the
single token "lionking", stemmed to "lionk" — finds nothing. -/
theorem C5_counterexample :
    search tkA stC5 (lstr "Lion-King") ≠ search tkA stC5 (lstr "lion king")
    := by decide

/-! ## C6: load error behavior -/

/-- C6 (amended).  `load` fails with a storage error when either artifact is
absent or undecodable; a failure on the index artifact leaves the state
unchanged, but a failure on the docmap artifact occurs *after* the
in-memory index has already been replaced, so the error state keeps the new
index with the old docmap (a partial load); with both artifacts good the
state is replaced wholesale. -/
theorem C6_load (st : IIState) (stor : Storage) :
    (stor.indexArt.isGood = false → load st stor = .error st) ∧
    (∀ ix, stor.indexArt = .good ix → stor.docmapArt.isGood = false →
      load st stor = .error ⟨ix, st.docmap⟩) ∧
    (∀ ix dm, stor.indexArt = .good ix → stor.docmapArt = .good dm →
      load st stor = .ok ⟨ix, dm⟩) := by
  obtain ⟨ia, da⟩ := stor
  refine ⟨?_, ?_, ?_⟩
  · intro h
    cases ia with
    | good ix => simp [Artifact.isGood] at h
    | absent => rfl
    | corrupt => rfl
  · rintro ix rfl h
    cases da with
    | good dm => simp [Artifact.isGood] at h
    | absent => rfl
    | corrupt => rfl
  · rintro ix dm rfl rfl
    rfl

/-- Witness for C6 at concrete artifacts. -/
theorem C6_witness :
    load stC6 ⟨.good [], .corrupt⟩ = .error ⟨[], stC6.docmap⟩ ∧
    load stC6 ⟨.good [], .good []⟩ = .ok ⟨[], []⟩ :=
  ⟨(C6_load stC6 ⟨.good [], .corrupt⟩).2.1 [] rfl rfl,
   (C6_load stC6 ⟨.good [], .good []⟩).2.2 [] [] rfl rfl⟩

/-- Counterexample to C6 as stated: a good but empty index artifact next to
a corrupt docmap artifact makes `load` fail *after* replacing the in-memory
index — the instance is not left unchanged. -/
theorem C6_counterexample :
    load stC6 ⟨.good [], .corrupt⟩ = .error stErrC6 ∧
    stErrC6.index ≠ stC6.index :=
  ⟨rfl, by decide⟩

/-! ## C7: build error behavior -/

/-- `build` over an appended corpus runs the prefix first. -/
theorem build_append (tk : Tokenizer) (pre rest : List Doc) :
    ∀ st : IIState,
      build tk st (pre ++ rest) =
        match build tk st pre with
        | .ok st1 => build tk st1 rest
        | .error st1 => .error st1 := by
  induction pre with
  | nil => intro st; rfl
  | cons m mr ih =>
    intro st
    rw [List.cons_append, build, build]
    cases hstep : buildStep tk st m with
    | ok st1 => exact ih st1
    | error st1 => rfl

/-- C7 (amended).  A corpus whose records all carry `id`, `title` and
`description` builds successfully; a record missing one of them makes
`build` raise at that record — later records are not processed — but the
records before it (and, for a record missing `title` or `description`, its
own docmap entry) remain in the in-memory state carried by the error. -/
theorem C7_build_errors (tk : Tokenizer) (st0 : IIState) :
    (∀ corpus : List Doc, corpus.all hasRequired = true →
      ∃ st', build tk st0 corpus = .ok st') ∧
    (∀ (pre : List Doc) (d : Doc) (post : List Doc),
      pre.all hasRequired = true → hasRequired d = false →
      ∃ stp stE, build tk st0 pre = .ok stp ∧
        buildStep tk stp d = .error stE ∧
        build tk st0 (pre ++ d :: post) = .error stE) := by
  constructor
  · exact fun corpus h => build_ok_of_required h st0
  · intro pre d post hpre hd
    obtain ⟨stp, hp⟩ := build_ok_of_required hpre st0
    obtain ⟨stE, hE⟩ := buildStep_error_of_missing stp hd
    refine ⟨stp, stE, hp, hE, ?_⟩
    rw [build_append tk pre (d :: post) st0, hp]
    show build tk stp (d :: post) = .error stE
    rw [build, hE]

/-- Witness for C7 at a concrete corpus. -/
theorem C7_witness :
    (∃ st', build tkA ⟨[], []⟩ [goodDoc] = .ok st') ∧
    (∃ stp stE, build tkA ⟨[], []⟩ [goodDoc] = .ok stp ∧
      buildStep tkA stp badDoc = .error stE ∧
      build tkA ⟨[], []⟩ ([goodDoc] ++ badDoc :: []) = .error stE) :=
  ⟨(C7_build_errors tkA ⟨[], []⟩).1 [goodDoc] (by decide),
   (C7_build_errors tkA ⟨[], []⟩).2 [goodDoc] badDoc [] (by decide)
     (by decide)⟩

/-- Counterexample to C7 as stated: `build` on `[goodDoc, badDoc]` raises,
yet the state it leaves behind is not the pre-build empty state — the first
document is already indexed and the bad record already sits in the docmap. -/
theorem C7_counterexample :
    build tkA ⟨[], []⟩ [goodDoc, badDoc] = .error stC7 ∧
    stC7 ≠ ⟨[], []⟩ :=
  ⟨rfl, by decide⟩

/-! ## C8: one tokenization on every path -/

/-- C8 (amended).  The engine the CLI uses shares a single tokenization:
the query and title paths of the linear-search engine both equal
`Tokenizer.tokenize` with the same stopword set, and the older
`search_engine.py` query path computes the same function through the
duplicated `text_processing` helpers; that module's *title* path, however,
performs only normalize-and-split, omitting stopword removal and
stemming. -/
theorem C8_shared_tokenization (stop : List (List Char)) (s : List Char) :
    linearProcessQuery ⟨stop⟩ s = Tokenizer.tokenize ⟨stop⟩ s ∧
    linearProcessTitle ⟨stop⟩ s = Tokenizer.tokenize ⟨stop⟩ s ∧
    seProcessQuery stop s = Tokenizer.tokenize ⟨stop⟩ s ∧
    seProcessTitle s = splitWsL (normalizeL s) := by
  exact ⟨rfl, rfl, rfl, rfl⟩

/-- Counterexample to C8 as stated: in `search_engine.py` the query "Running"
is processed to the stem `run` while the same string as a title is processed
to the unstemmed token `running`, so its query and title token sequences
differ. -/
theorem C8_counterexample :
    seProcessQuery [] (lstr "Running") ≠ seProcessTitle (lstr "Running")
    := by decide

/-! ## C9: no empty posting sets -/

/-- A `set.add` result is never empty. -/
theorem insertSet_ne_nil (i : Nat) (l : List Nat) : insertSet i l ≠ [] := by
  cases l with
  | nil => simp [insertSet]
  | cons a r =>
    unfold insertSet
    split_ifs <;> simp

/-- `indexInsert` keeps every stored posting set nonempty. -/
theorem keysNonemptyB_insert (t : Term) (i : Nat) :
    ∀ idx : Index, keysNonemptyB idx = true →
      keysNonemptyB (indexInsert t i idx) = true := by
  intro idx
  induction idx with
  | nil =>
    intro _
    simp [indexInsert, keysNonemptyB, insertSet]
  | cons p r ih =>
    obtain ⟨t0, ps⟩ := p
    intro h
    unfold keysNonemptyB at h ⊢
    rw [List.all_cons, Bool.and_eq_true] at h
    rw [indexInsert]
    split_ifs with ht
    · rw [List.all_cons, Bool.and_eq_true]
      refine ⟨?_, h.2⟩
      simpa [List.isEmpty_iff] using insertSet_ne_nil i ps
    · rw [List.all_cons, Bool.and_eq_true]
      exact ⟨h.1, ih h.2⟩

/-- The insertion fold of `__add_document` keeps posting sets nonempty. -/
theorem keysNonemptyB_fold (i : Nat) (toks : List Term) :
    ∀ idx : Index, keysNonemptyB idx = true →
      keysNonemptyB (toks.foldl (fun acc t => indexInsert t i acc) idx)
        = true := by
  induction toks with
  | nil => exact fun idx h => h
  | cons u us ih =>
    intro idx h
    rw [List.foldl_cons]
    exact ih _ (keysNonemptyB_insert u i idx h)

/-- `__add_document` keeps posting sets nonempty. -/
theorem keysNonemptyB_addDocument {tk : Tokenizer} {idx : Index} {i : Nat}
    {text : List Char} (h : keysNonemptyB idx = true) :
    keysNonemptyB (addDocument tk idx i text) = true := by
  unfold addDocument
  exact keysNonemptyB_fold i _ idx h

/-- One `build` iteration keeps posting sets nonempty, whether it succeeds
or raises. -/
theorem keysNonemptyB_buildStep {tk : Tokenizer} {st st' : IIState}
    {m : Doc} (h : keysNonemptyB st.index = true)
    (hstep : buildStep tk st m = .ok st' ∨ buildStep tk st m = .error st') :
    keysNonemptyB st'.index = true := by
  unfold buildStep at hstep
  cases hid : m.id? with
  | none =>
    rw [hid] at hstep
    rcases hstep with h' | h'
    · exact absurd h' (by simp)
    · cases h'; exact h
  | some i =>
    rw [hid] at hstep
    cases hti : m.title? with
    | none =>
      rw [hti] at hstep
      rcases hstep with h' | h'
      · exact absurd h' (by simp)
      · cases h'; exact h
    | some ti =>
      cases hde : m.descr? with
      | none =>
        rw [hti, hde] at hstep
        rcases hstep with h' | h'
        · exact absurd h' (by simp)
        · cases h'; exact h
      | some de =>
        rw [hti, hde] at hstep
        rcases hstep with h' | h'
        · cases h'; exact keysNonemptyB_addDocument h
        · exact absurd h' (by simp)

/-- `build` keeps posting sets nonempty, whether it succeeds or raises. -/
theorem keysNonemptyB_build {tk : Tokenizer} {ms : List Doc} :
    ∀ {st st' : IIState}, keysNonemptyB st.index = true →
      (build tk st ms = .ok st' ∨ build tk st ms = .error st') →
      keysNonemptyB st'.index = true := by
  induction ms with
  | nil =>
    intro st st' h hb
    rcases hb with h' | h' <;> rw [build] at h'
    · cases h'; exact h
    · exact absurd h' (by simp)
  | cons m mr ih =>
    intro st st' h hb
    cases hstep : buildStep tk st m with
    | ok st1 =>
      have hkey := keysNonemptyB_buildStep h (Or.inl hstep)
      rcases hb with h' | h'
      · rw [build, hstep] at h'
        exact ih hkey (Or.inl h')
      · rw [build, hstep] at h'
        exact ih hkey (Or.inr h')
    | error st1 =>
      have hkey := keysNonemptyB_buildStep h (Or.inr hstep)
      rcases hb with h' | h'
      · rw [build, hstep] at h'
        exact Except.noConfusion h'
      · rw [build, hstep] at h'
        cases h'
        exact hkey

/-- Unfolding `runOp` on a build operation. -/
theorem runOp_build (tk : Tokenizer) (w : IIState × Storage)
    (c : List Doc) :
    runOp tk w (Op.build c) =
      (match build tk w.1 c with
       | .ok st => (st, w.2)
       | .error st => (st, w.2)) := rfl

/-- Unfolding `runOp` on a load operation. -/
theorem runOp_load (tk : Tokenizer) (w : IIState × Storage) :
    runOp tk w Op.load =
      (match load w.1 w.2 with
       | .ok st => (st, w.2)
       | .error st => (st, w.2)) := rfl

/-- Every operation preserves the no-empty-posting-set invariant of the
live index and of any persisted index artifact. -/
theorem runOp_inv (tk : Tokenizer) {w : IIState × Storage} (op : Op)
    (h : worldInv w) : worldInv (runOp tk w op) := by
  obtain ⟨h1, h2⟩ := h
  cases op with
  | build c =>
    cases hb : build tk w.1 c with
    | ok st =>
      have hr : runOp tk w (Op.build c) = (st, w.2) := by
        rw [runOp_build, hb]
      rw [hr]
      exact ⟨keysNonemptyB_build h1 (Or.inl hb), h2⟩
    | error st =>
      have hr : runOp tk w (Op.build c) = (st, w.2) := by
        rw [runOp_build, hb]
      rw [hr]
      exact ⟨keysNonemptyB_build h1 (Or.inr hb), h2⟩
  | save =>
    refine ⟨h1, ?_⟩
    intro ix hix
    have he : Artifact.good w.1.index = Artifact.good ix := hix
    injection he with he2
    rw [← he2]
    exact h1
  | load =>
    cases hl : load w.1 w.2 with
    | ok st =>
      have hr : runOp tk w Op.load = (st, w.2) := by
        rw [runOp_load, hl]
      rw [hr]
      unfold load at hl
      cases hia : w.2.indexArt with
      | absent => rw [hia] at hl; exact absurd hl (by simp)
      | corrupt => rw [hia] at hl; exact absurd hl (by simp)
      | good ix =>
        rw [hia] at hl
        cases hda : w.2.docmapArt with
        | absent => rw [hda] at hl; exact absurd hl (by simp)
        | corrupt => rw [hda] at hl; exact absurd hl (by simp)
        | good dm =>
          rw [hda] at hl
          cases hl
          exact ⟨h2 ix hia, h2⟩
    | error st =>
      have hr : runOp tk w Op.load = (st, w.2) := by
        rw [runOp_load, hl]
      rw [hr]
      unfold load at hl
      cases hia : w.2.indexArt with
      | absent => rw [hia] at hl; cases hl; exact ⟨h1, h2⟩
      | corrupt => rw [hia] at hl; cases hl; exact ⟨h1, h2⟩
      | good ix =>
        rw [hia] at hl
        cases hda : w.2.docmapArt with
        | absent => rw [hda] at hl; cases hl; exact ⟨h2 ix hia, h2⟩
        | corrupt => rw [hda] at hl; cases hl; exact ⟨h2 ix hia, h2⟩
        | good dm => rw [hda] at hl; exact absurd hl (by simp)

/-- Operation traces preserve the invariant. -/
theorem runOps_inv (tk : Tokenizer) (ops : List Op) :
    ∀ w, worldInv w → worldInv (runOps tk w ops) := by
  induction ops with
  | nil => exact fun w h => h
  | cons op rest ih => exact fun w h => ih _ (runOp_inv tk op h)

/-- C9.  After any sequence of `build`, `save` and `load` operations from
an empty instance and empty cache, every term stored in the index has a
nonempty posting set. -/
theorem C9_no_empty_postings (tk : Tokenizer) (ops : List Op) :
    ∀ p ∈ (runOps tk emptyWorld ops).1.index, p.2 ≠ [] := by
  have hinv := runOps_inv tk ops emptyWorld ⟨rfl, fun ix hix => nomatch hix⟩
  intro p hp
  have hall := (List.all_eq_true.mp hinv.1) p hp
  simpa [List.isEmpty_iff] using hall

/-- Witness for C9 on a concrete build-save-load trace. -/
theorem C9_witness :
    (lstr "cat", [1]) ∈
      (runOps tkA emptyWorld [Op.build [goodDoc], Op.save, Op.load]).1.index
      ∧ [1] ≠ ([] : List Nat) :=
  ⟨by decide,
   C9_no_empty_postings tkA [Op.build [goodDoc], Op.save, Op.load]
     (lstr "cat", [1]) (by decide)⟩

end RagSearch
